import Mathlib

/-!
Verification of the YAML template editor core
(src/utils/yamlParser.ts): value classification, template extraction,
structure-preserving merge, and syntax validation.

The embedding works at the document-tree level.  A parsed document is a
tree of tagged nodes (scalar, sequence, mapping) carrying comment and
flow-style metadata, mirroring the node trees produced by the external
yaml library.  Serialising a tree to text and re-parsing it is modelled
as the identity on trees (the round-trip guarantee of the library), so
functions of the source that take or return document text are stated
here on trees.  Mapping keys are modelled as scalar nodes; collection
keys (a mapping used as a key), anchors and aliases are outside the
model.  JavaScript machine behaviour that the source relies on is
modelled explicitly: plain objects are association lists built with
last-write-wins assignment, property access on null throws a TypeError,
and loose truthiness of key lookups follows the source expressions.
-/

/-- A scalar payload: string, number, boolean or null.  Numbers are
modelled as integers; nothing in the verified code distinguishes
integer from fractional values. -/
inductive Prim where
  | str (s : String)
  | num (n : Int)
  | bool (b : Bool)
  | null
deriving DecidableEq, Repr

/-- Node metadata kept by the yaml library: the comment attached before
the node, the comment attached to it, and whether the collection was
authored in flow (inline) style. -/
structure Meta where
  commentBefore : Option String := none
  comment : Option String := none
  flow : Bool := false
deriving DecidableEq, Repr

instance : Inhabited Meta := ⟨{}⟩

/-- A decoded plain value, the result of document.toJSON().  Objects are
association lists from string keys to values, in property order. -/
inductive YVal where
  | prim (p : Prim)
  | arr (xs : List YVal)
  | obj (l : List (String × YVal))

/-- A document tree node as kept by the yaml library: scalar, sequence
or mapping, each with its metadata.  A mapping holds a list of pairs;
each pair is a scalar key node (payload and metadata) and a value
node. -/
inductive Node where
  | scalar (v : Prim) (m : Meta)
  | seq (items : List Node) (m : Meta)
  | map (items : List ((Prim × Meta) × Node)) (m : Meta)

/-- A pair of a mapping: scalar key node (payload, metadata) and value
node. -/
abbrev MPair := (Prim × Meta) × Node

/-- Document contents: null for an empty or comment-only document. -/
abbrev Doc := Option Node

/-- Property name of a decoded mapping key, as the library toJSON
derives it in addPairToJSMap: a string key names itself, a number or
boolean key its JavaScript String conversion, and a null key the
empty-string property. -/
def stringifyKey : Prim → String
  | .str s => s
  | .num n => toString n
  | .bool b => if b then "true" else "false"
  | .null => ""

/-- JavaScript object property assignment on an association list:
overwrite in place when the key is present, append otherwise. -/
def objSet (l : List (String × YVal)) (k : String) (v : YVal) :
    List (String × YVal) :=
  if l.any (fun e => e.1 = k) then
    l.map (fun e => if e.1 = k then (k, v) else e)
  else l ++ [(k, v)]

/-- Build a JavaScript object from a list of property writes. -/
def objFold (l : List (String × YVal)) : List (String × YVal) :=
  l.foldl (fun acc e => objSet acc e.1 e.2) []

mutual

/-- Decode a tree node to a plain value, as document.toJSON(): scalars
to their payload, sequences to arrays, mappings to objects built by
assigning each pair in order under its stringified key. -/
def decode : Node → YVal
  | .scalar p _ => .prim p
  | .seq xs _ => .arr (decodeList xs)
  | .map items _ => .obj (objFold (decodePairs items))

/-- Decode of each node of a sequence. -/
def decodeList : List Node → List YVal
  | [] => []
  | x :: xs => decode x :: decodeList xs

/-- Decode of each pair of a mapping: stringified key paired with the
decoded value. -/
def decodePairs : List MPair → List (String × YVal)
  | [] => []
  | p :: rest => (stringifyKey p.1.1, decode p.2) :: decodePairs rest

end

/-- Decode of the document contents; null contents decode to null. -/
def decodeDoc : Doc → YVal
  | none => .prim .null
  | some n => decode n

mutual

/-- Document.createNode: build a fresh tree node from a plain value,
with no comments and default (block) style throughout. -/
def createNode : YVal → Node
  | .prim p => .scalar p {}
  | .arr xs => .seq (createNodeList xs) {}
  | .obj l => .map (createNodePairs l) {}

/-- Fresh nodes for the elements of an array. -/
def createNodeList : List YVal → List Node
  | [] => []
  | v :: vs => createNode v :: createNodeList vs

/-- Fresh pairs for the properties of an object: bare string key nodes
and fresh value nodes. -/
def createNodePairs : List (String × YVal) → List MPair
  | [] => []
  | e :: rest => ((.str e.1, {}), createNode e.2) :: createNodePairs rest

end

/-- decodeList is the elementwise decode. -/
theorem decodeList_eq_map (xs : List Node) : decodeList xs = xs.map decode := by
  induction xs with
  | nil => rfl
  | cons x rest ih => simp [decodeList, ih]

/-- decodePairs is the elementwise decode of pairs. -/
theorem decodePairs_eq_map (items : List MPair) :
    decodePairs items =
      items.map (fun p => (stringifyKey p.1.1, decode p.2)) := by
  induction items with
  | nil => rfl
  | cons p rest ih => simp [decodePairs, ih]


/-- The closed set of edit kinds assigned by the classifier. -/
inductive OptType where
  | string
  | number
  | boolean
  | array
  | weighted
  | object
deriving DecidableEq, Repr

/-- Whether a decoded value is a number (JavaScript typeof number). -/
def isNumberVal : YVal → Bool
  | .prim (.num _) => true
  | _ => false

/-- determineType from the source: arrays first; then non-null objects,
weighted when every member value is a number, object otherwise; then
booleans; then numbers; anything else (strings and null) is string. -/
def determineType (value : YVal) : OptType :=
  match value with
  | .arr _ => .array
  | .obj l => if l.all (fun p => isNumberVal p.2) then .weighted else .object
  | .prim (.bool _) => .boolean
  | .prim (.num _) => .number
  | _ => .string

/-- The classification rule as the specification words it: sequence to
array; mapping to weighted when every member value is numeric (the
empty mapping vacuously included), else object; boolean to boolean;
number to number; anything else to string. -/
def classifySpec : YVal → OptType
  | .arr _ => .array
  | .obj l =>
      if l.all (fun p => match p.2 with | .prim (.num _) => true | _ => false)
      then .weighted else .object
  | .prim (.bool _) => .boolean
  | .prim (.num _) => .number
  | _ => .string

/-- Errors a JavaScript execution of the verified functions can throw:
a TypeError from a property access on null, a SyntaxError from the
markup grammar, the duplicate-key error thrown by the yaml map add
method, and the invalid-document error thrown inside the merge. -/
inductive JSErr where
  | typeError (accessedKey : String)
  | syntaxError (msg : String)
  | keyAlreadySet (key : String)
  | invalidDocument
deriving DecidableEq, Repr

/-- JavaScript property read parsed[key], as used by the root-option
loop: reading a property of null throws a TypeError; reading an absent
property of an object yields undefined (modelled as none); reading a
named non-index property of an array, string, number or boolean yields
undefined for the keys the source uses. -/
def jsGet : YVal → String → Except JSErr (Option YVal)
  | .prim .null, k => .error (.typeError k)
  | .obj l, k => .ok (l.lookup k)
  | .arr _, _ => .ok none
  | .prim _, _ => .ok none

/-- JavaScript for-in enumeration of a decoded value: objects yield
their properties; arrays yield index keys with their elements; strings
yield index keys with one-character strings; other values yield
nothing. -/
def enumEntries : YVal → List (String × YVal)
  | .obj l => l
  | .arr xs => xs.enum.map (fun e => (toString e.1, e.2))
  | .prim (.str s) =>
      s.toList.enum.map (fun e => (toString e.1, .prim (.str e.2.toString)))
  | _ => []

/-- The recognized root keys of the source. -/
def rootKeys : List String := ["description", "name", "game", "requires"]

/-- Metadata of a tree node. -/
def metaOf : Node → Meta
  | .scalar _ m => m
  | .seq _ m => m
  | .map _ m => m

/-- The yaml map get method with keepScalar, as used by the comment and
flow lookups: find the first pair whose scalar key payload equals the
string key by value, returning its value node. -/
def mapGet (items : List MPair) (k : String) : Option Node :=
  (items.find? (fun p => match p.1.1 with
    | .str s => s = k
    | _ => false)).map (fun p => p.2)

/-- The comment read off a located node: the commentBefore field when
the node carries one, else its comment field, trimmed. -/
def commentOf (n : Node) : Option String :=
  match (metaOf n).commentBefore with
  | some c => some c.trim
  | none => (metaOf n).comment.map (fun c => c.trim)

/-- getComment from the source: resolve the value node of key (inside
parent when given) in the document tree and read its comment; every
failure to resolve yields none. -/
def getComment (document : Doc) (key : String) (parent : Option String) :
    Option String :=
  match document with
  | some (.map items _) =>
      match parent with
      | some par =>
          match mapGet items par with
          | some (.map pItems _) =>
              match mapGet pItems key with
              | some n => commentOf n
              | none => none
          | _ => none
      | none =>
          match mapGet items key with
          | some n => commentOf n
          | none => none
  | _ => none

/-- isFlowStyle from the source: resolve the value node the same way
and read its flow flag; scalar nodes carry no flow property, and every
failure to resolve yields false. -/
def isFlowStyle (document : Doc) (key : String) (parent : Option String) :
    Bool :=
  match document with
  | some (.map items _) =>
      match parent with
      | some par =>
          match mapGet items par with
          | some (.map pItems _) =>
              match mapGet pItems key with
              | some (.seq _ m) => m.flow
              | some (.map _ m) => m.flow
              | _ => false
          | _ => false
      | none =>
          match mapGet items key with
          | some (.seq _ m) => m.flow
          | some (.map _ m) => m.flow
          | _ => false
  | _ => false

/-- One extracted option: key, current value, edit kind, the first
parsed value, the attached comment and the flow-style flag. -/
structure ParsedOption where
  key : String
  value : YVal
  type : OptType
  originalValue : YVal
  comment : Option String
  isFlowStyle : Bool

/-- The extraction result: root options, per-section option lists, the
decoded raw value and the retained document. -/
structure ParsedTemplate where
  rootOptions : List ParsedOption
  gameOptions : List (String × List ParsedOption)
  raw : YVal
  document : Doc

/-- Build one option for key k with decoded value v, scoped under an
optional parent section. -/
def mkOption (document : Doc) (parent : Option String) (k : String)
    (v : YVal) : ParsedOption :=
  { key := k
    value := v
    type := determineType v
    originalValue := v
    comment := getComment document k parent
    isFlowStyle := isFlowStyle document k parent }

/-- The root-option loop of parseYamlTemplate: for each recognized root
key in order, read parsed[key] (which throws a TypeError when parsed is
null) and build an option when the value is not undefined. -/
def extractRoots (parsed : YVal) (document : Doc) :
    List String → Except JSErr (List ParsedOption)
  | [] => .ok []
  | k :: rest => do
      let v? ← jsGet parsed k
      let tail ← extractRoots parsed document rest
      match v? with
      | some v => .ok (mkOption document none k v :: tail)
      | none => .ok tail

/-- The typeof test of the source for game sections: JavaScript typeof
yields object for mappings and also for sequences, and the null check
excludes null; scalars are excluded. -/
def typeofObjectNotNull : YVal → Bool
  | .obj _ => true
  | .arr _ => true
  | _ => false

/-- The game-section loop of parseYamlTemplate: every enumerated
top-level key outside the root-key set whose value has JavaScript
typeof object and is not null (a mapping or a sequence) becomes a
section, with one option per enumerated member. -/
def extractGames (parsed : YVal) (document : Doc) :
    List (String × List ParsedOption) :=
  (enumEntries parsed).foldl
    (fun acc e =>
      if rootKeys.contains e.1 then acc
      else if typeofObjectNotNull e.2 then
        acc ++ [(e.1, (enumEntries e.2).map
          (fun s => mkOption document (some e.1) s.1 s.2))]
      else acc)
    []

/-- parseYamlTemplate at the tree level: decode the document, extract
root options (which can throw a TypeError when the decode is null),
extract game sections, and return the template together with the
retained document. -/
def parseYamlTemplate (document : Doc) : Except JSErr ParsedTemplate := do
  let parsed := decodeDoc document
  let ro ← extractRoots parsed document rootKeys
  .ok { rootOptions := ro
        gameOptions := extractGames parsed document
        raw := parsed
        document := document }

/-- The merge key lookup of the source, item.key?.value ||
item.key?.toString(), compared with strict equality to a string option
key.  A truthy string key compares as itself; a falsy scalar key (the
empty string, zero, false, null) falls back to Scalar.toString(), which
the yaml library overrides to the JavaScript String conversion of the
raw value; a truthy number or true stays a non-string value, which
strict equality never equates to a string, written none. -/
def keyValueStr : Prim → Option String
  | .str s => some s
  | .num n => if n = 0 then some "0" else none
  | .bool b => if b then none else some "false"
  | .null => some "null"

/-- Whether a merge key lookup on pair key k matches option key s. -/
def keyMatches (k : Prim) (s : String) : Bool :=
  keyValueStr k = some s

/-- Replace the value of the first pair whose key matches k with v,
leaving the key node untouched; identity when no pair matches. -/
def replaceFirst (items : List MPair) (k : String) (v : Node) : List MPair :=
  match items with
  | [] => []
  | p :: rest =>
      if keyMatches p.1.1 k then (p.1, v) :: rest
      else p :: replaceFirst rest k v

/-- The duplicate check of the yaml add method, which compares the raw
scalar key payload to the given string key by strict value equality. -/
def addFindsDuplicate (items : List MPair) (k : String) : Bool :=
  items.any (fun p => match p.1.1 with
    | .str s => s = k
    | _ => false)

/-- The member loop of the weighted-mapping branch: for each entry of
the new object in order, replace the value of an existing matching pair
with a freshly built node, or add the entry; add throws when the yaml
duplicate check finds a value-equal key that the merge lookup missed.
An added pair is modelled as a bare string key with a freshly built
value node, which is how the raw pair behaves from then on. -/
def reconcileEntries (items : List MPair) :
    List (String × YVal) → Except JSErr (List MPair)
  | [] => .ok items
  | (k, v) :: rest =>
      if items.any (fun p => keyMatches p.1.1 k) then
        reconcileEntries (replaceFirst items k (createNode v)) rest
      else if addFindsDuplicate items k then
        .error (.keyAlreadySet k)
      else
        reconcileEntries (items ++ [((.str k, {}), createNode v)]) rest

/-- The removal filter of the weighted-mapping branch: keep only pairs
whose merge key lookup yields a string contained in the new key set. -/
def filterNewKeys (items : List MPair) (newKeys : List String) :
    List MPair :=
  items.filter (fun p => match keyValueStr p.1.1 with
    | some s => newKeys.contains s
    | none => false)

/-- The whole mapping-to-mapping update of one section option: update
or add each member of the new value, then remove pairs whose key is
absent from the new key set. -/
def mapReconcile (oldItems : List MPair) (newObj : List (String × YVal)) :
    Except JSErr (List MPair) := do
  let updated ← reconcileEntries oldItems newObj
  .ok (filterNewKeys updated (newObj.map (fun e => e.1)))

/-- Update one option inside a game-section mapping: locate the first
pair matching the option key; when found, a non-object or array value
replaces the pair value wholesale, an object value is reconciled member
by member into an existing mapping node (preserving that mapping node
and its metadata), and an object value over a non-mapping node falls
back to wholesale replacement; when no pair matches, the option is
dropped. -/
def updateGameOption : List MPair → ParsedOption →
    Except JSErr (List MPair)
  | [], _ => .ok []
  | p :: rest, opt =>
      if keyMatches p.1.1 opt.key then
        match opt.value, p.2 with
        | .obj newObj, .map oldItems m => do
            let merged ← mapReconcile oldItems newObj
            .ok ((p.1, .map merged m) :: rest)
        | _, _ => .ok ((p.1, createNode opt.value) :: rest)
      else do
        let rest2 ← updateGameOption rest opt
        .ok (p :: rest2)

/-- Fold of updateGameOption over the option list of one section. -/
def updateGameOptions (items : List MPair) :
    List ParsedOption → Except JSErr (List MPair)
  | [] => .ok items
  | opt :: rest => do
      let items2 ← updateGameOption items opt
      updateGameOptions items2 rest

/-- Update one game section in the top-level mapping: locate the first
pair matching the section name; when its value is a mapping, update
every option of the section inside it, preserving the mapping node and
its metadata; a missing section or a non-mapping value leaves the tree
unchanged. -/
def updateGameSection : List MPair → String → List ParsedOption →
    Except JSErr (List MPair)
  | [], _, _ => .ok []
  | p :: rest, g, opts =>
      if keyMatches p.1.1 g then
        match p.2 with
        | .map gItems m => do
            let gItems2 ← updateGameOptions gItems opts
            .ok ((p.1, .map gItems2 m) :: rest)
        | _ => .ok (p :: rest)
      else do
        let rest2 ← updateGameSection rest g opts
        .ok (p :: rest2)

/-- Update one root option in the top-level mapping: locate the first
pair matching the option key and replace only its value with a freshly
built node; a missing key leaves the tree unchanged. -/
def updateRootOption (items : List MPair) (opt : ParsedOption) :
    List MPair :=
  replaceFirst items opt.key (createNode opt.value)

/-- Path A of exportToYaml, the surgical merge: on the fresh clone of
the retained tree (cloning through serialise-and-reparse is the
identity here), check the contents are a mapping, update every root
option, then every game section.  Every throw escapes as an error. -/
def mergeAttempt (rootOptions : List ParsedOption)
    (gameOptions : List (String × List ParsedOption)) (contents : Node) :
    Except JSErr Node :=
  match contents with
  | .map topItems m => do
      let t1 := rootOptions.foldl updateRootOption topItems
      let t2 ← gameOptions.foldlM (fun acc e => updateGameSection acc e.1 e.2) t1
      .ok (.map t2 m)
  | _ => .error .invalidDocument

/-- The plain result object built by the fallback path: root options
assigned first, then one object per game section. -/
def buildFallbackResult (rootOptions : List ParsedOption)
    (gameOptions : List (String × List ParsedOption)) :
    List (String × YVal) :=
  let r1 := rootOptions.foldl (fun acc o => objSet acc o.key o.value) []
  gameOptions.foldl
    (fun acc e =>
      objSet acc e.1
        (.obj (e.2.foldl (fun a o => objSet a o.key o.value) [])))
    r1

/-- Path B of exportToYaml, the fallback full regeneration: build a
plain nested value from the option lists alone and turn it into a fresh
document tree; comments and flow style are not recoverable. -/
def exportFallback (rootOptions : List ParsedOption)
    (gameOptions : List (String × List ParsedOption)) : Node :=
  createNode (.obj (buildFallbackResult rootOptions gameOptions))

/-- exportToYaml at the tree level: when a retained document with
mapping contents is given, attempt the surgical merge and fall back to
full regeneration when it throws anything; otherwise regenerate. -/
def exportToYaml (rootOptions : List ParsedOption)
    (gameOptions : List (String × List ParsedOption))
    (originalDocument : Option Doc) : Node :=
  match originalDocument with
  | some (some contents) =>
      match contents with
      | .map _ _ =>
          match mergeAttempt rootOptions gameOptions contents with
          | .ok t => t
          | .error _ => exportFallback rootOptions gameOptions
      | _ => exportFallback rootOptions gameOptions
  | _ => exportFallback rootOptions gameOptions

/-- The document value returned by the external yaml parseDocument: the
tree contents (null for an empty document) and the collected syntax
errors.  parseDocument does not throw on malformed input; it records
problems in the errors list. -/
structure YDocument where
  contents : Doc
  errors : List String

/-- The result shape of validateYaml. -/
structure ValidationResult where
  valid : Bool
  error : Option String
deriving DecidableEq, Repr

/-- Message of a thrown error, as read by the validator catch. -/
def errMessage : JSErr → String
  | .typeError k => "Cannot read properties of null, reading " ++ k
  | .syntaxError msg => msg
  | .keyAlreadySet k => "Key " ++ k ++ " already set"
  | .invalidDocument => "Invalid document structure"

/-- A call of the library parseDocument observed through try/catch:
the library never throws on malformed input, so the call always
returns ok, whatever total parse function the library implements. -/
def parseDocumentCall (parseFn : String → YDocument) (s : String) :
    Except JSErr YDocument :=
  .ok (parseFn s)

/-- validateYaml from the source: parse inside try/catch; a throw is
reported as an invalid result carrying the message, success as valid. -/
def validateYaml (parseFn : String → YDocument) (yamlContent : String) :
    ValidationResult :=
  match parseDocumentCall parseFn yamlContent with
  | .ok _ => { valid := true, error := none }
  | .error e => { valid := false, error := some (errMessage e) }

/-- parseYamlTemplate on raw text: parse the text with the library
parse function, then extract from the resulting contents. -/
def parseYamlTemplateS (parseFn : String → YDocument) (yamlContent : String) :
    Except JSErr ParsedTemplate :=
  parseYamlTemplate (parseFn yamlContent).contents

mutual

/-- A canonical decoded value, the shape a real JavaScript value can
have: object key lists never repeat a key, recursively.  Every decode
result is canonical. -/
def canonical : YVal → Bool
  | .prim _ => true
  | .arr xs => canonicalList xs
  | .obj l => decide ((l.map Prod.fst).Nodup) && canonicalObj l

/-- Canonicity of every element of an array. -/
def canonicalList : List YVal → Bool
  | [] => true
  | v :: vs => canonical v && canonicalList vs

/-- Canonicity of every property value of an object. -/
def canonicalObj : List (String × YVal) → Bool
  | [] => true
  | e :: rest => canonical e.2 && canonicalObj rest

end

/-- Writing an absent key appends it. -/
theorem objSet_not_mem (l : List (String × YVal)) (k : String) (v : YVal)
    (h : l.any (fun e => e.1 = k) = false) : objSet l k v = l ++ [(k, v)] := by
  simp only [objSet, h]
  simp

/-- The key list of an assignment result: unchanged on overwrite, the
new key appended otherwise. -/
theorem objSet_keys (l : List (String × YVal)) (k : String) (v : YVal) :
    (objSet l k v).map Prod.fst =
      if l.any (fun e => e.1 = k) then l.map Prod.fst
      else l.map Prod.fst ++ [k] := by
  by_cases h : l.any (fun e => e.1 = k)
  · simp only [objSet, h, if_true, List.map_map]
    apply List.map_congr_left
    intro e _
    by_cases he : e.1 = k <;> simp [he]
  · simp only [eq_false_of_ne_true h, objSet, Bool.false_eq_true, if_false]
    simp

/-- A fold of assignments over keys that never collide, starting from a
prefix they do not collide with either, is the append. -/
theorem objFold_from_nodup (l acc : List (String × YVal))
    (h : ((acc ++ l).map Prod.fst).Nodup) :
    l.foldl (fun a e => objSet a e.1 e.2) acc = acc ++ l := by
  induction l generalizing acc with
  | nil => simp
  | cons e rest ih =>
      have hmem : acc.any (fun x => x.1 = e.1) = false := by
        simp only [List.map_append, List.map_cons] at h
        rcases List.nodup_append.mp h with ⟨_, _, hdis⟩
        simp only [List.any_eq_false]
        intro x hx heq
        have h1 : x.1 ∈ acc.map Prod.fst := List.mem_map_of_mem Prod.fst hx
        have h2 : x.1 ∈ e.1 :: rest.map Prod.fst := by
          simp [of_decide_eq_true heq]
        exact hdis h1 h2
      simp only [List.foldl_cons, objSet_not_mem acc e.1 e.2 hmem]
      have h2 : (((acc ++ [(e.1, e.2)]) ++ rest).map Prod.fst).Nodup := by
        simpa using h
      calc rest.foldl (fun a x => objSet a x.1 x.2) (acc ++ [(e.1, e.2)])
          = (acc ++ [(e.1, e.2)]) ++ rest := ih (acc ++ [(e.1, e.2)]) h2
        _ = acc ++ e :: rest := by simp

/-- Building an object from writes with pairwise distinct keys keeps
the write list as it is. -/
theorem objFold_nodup (l : List (String × YVal))
    (h : (l.map Prod.fst).Nodup) : objFold l = l := by
  have := objFold_from_nodup l [] (by simpa using h)
  simpa [objFold] using this

/-- Assignment preserves a property of all stored values when the
written value has it. -/
theorem objSet_all (Q : YVal → Bool) (l : List (String × YVal))
    (k : String) (v : YVal) (hl : l.all (fun e => Q e.2) = true)
    (hv : Q v = true) : (objSet l k v).all (fun e => Q e.2) = true := by
  rw [List.all_eq_true] at hl
  by_cases h : l.any (fun e => e.1 = k)
  · simp only [objSet, h, if_true]
    rw [List.all_eq_true]
    intro e he
    rcases List.mem_map.mp he with ⟨e0, he0, heq⟩
    subst heq
    by_cases hek : e0.1 = k
    · simp only [hek, reduceIte]
      exact hv
    · simp only [hek, reduceIte]
      exact hl e0 he0
  · rw [objSet_not_mem l k v (eq_false_of_ne_true h)]
    rw [List.all_eq_true]
    intro e he
    rcases List.mem_append.mp he with h1 | h1
    · exact hl e h1
    · simp only [List.mem_singleton] at h1
      subst h1
      exact hv

/-- Building an object preserves a property of all written values. -/
theorem objFold_all (Q : YVal → Bool) (l : List (String × YVal))
    (h : l.all (fun e => Q e.2) = true) :
    (objFold l).all (fun e => Q e.2) = true := by
  suffices hgen : ∀ acc, acc.all (fun e => Q e.2) = true →
      (l.foldl (fun a e => objSet a e.1 e.2) acc).all (fun e => Q e.2) = true by
    exact hgen [] rfl
  induction l with
  | nil => intro acc hacc; simpa using hacc
  | cons e rest ih =>
      intro acc hacc
      simp only [List.all_cons, Bool.and_eq_true] at h
      exact ih h.2 (objSet acc e.1 e.2) (objSet_all Q acc e.1 e.2 hacc h.1)

/-- Assignment preserves distinctness of the stored keys. -/
theorem objSet_keys_nodup (l : List (String × YVal)) (k : String)
    (v : YVal) (h : (l.map Prod.fst).Nodup) :
    ((objSet l k v).map Prod.fst).Nodup := by
  rw [objSet_keys]
  by_cases hmem : l.any (fun e => e.1 = k)
  · simpa [hmem] using h
  · have hm : l.any (fun e => e.1 = k) = false := eq_false_of_ne_true hmem
    simp only [hm, Bool.false_eq_true, if_false]
    rw [List.nodup_append]
    refine ⟨h, List.nodup_singleton k, ?_⟩
    intro a ha hb
    simp only [List.mem_singleton] at hb
    subst hb
    rcases List.mem_map.mp ha with ⟨e, he, hfst⟩
    rw [List.any_eq_false] at hm
    exact hm e he (decide_eq_true hfst)

/-- The keys of a built object are pairwise distinct. -/
theorem objFold_keys_nodup (l : List (String × YVal)) :
    ((objFold l).map Prod.fst).Nodup := by
  suffices hgen : ∀ acc, (acc.map Prod.fst).Nodup →
      ((l.foldl (fun a e => objSet a e.1 e.2) acc).map Prod.fst).Nodup by
    exact hgen [] List.nodup_nil
  induction l with
  | nil => intro acc hacc; simpa using hacc
  | cons e rest ih =>
      intro acc hacc
      exact ih (objSet acc e.1 e.2) (objSet_keys_nodup acc e.1 e.2 hacc)

/-- canonicalObj is the all-values canonicity check. -/
theorem canonicalObj_eq_all (l : List (String × YVal)) :
    canonicalObj l = l.all (fun e => canonical e.2) := by
  induction l with
  | nil => rfl
  | cons e rest ih => simp [canonicalObj, ih]

/-- canonicalList is the all-elements canonicity check. -/
theorem canonicalList_eq_all (xs : List YVal) :
    canonicalList xs = xs.all canonical := by
  induction xs with
  | nil => rfl
  | cons v rest ih => simp [canonicalList, ih]

mutual

/-- Every decode result is canonical. -/
theorem decode_canonical : ∀ n, canonical (decode n) = true
  | .scalar _ _ => rfl
  | .seq xs _ => by
      simp only [decode, canonical, decodeList_canonical xs]
  | .map items _ => by
      simp only [decode, canonical, Bool.and_eq_true]
      constructor
      · exact decide_eq_true (objFold_keys_nodup (decodePairs items))
      · have h1 := decodePairs_canonical items
        have h2 := objFold_all canonical (decodePairs items) h1
        rw [canonicalObj_eq_all]
        exact h2

/-- Every decoded sequence element is canonical. -/
theorem decodeList_canonical : ∀ xs, canonicalList (decodeList xs) = true
  | [] => rfl
  | x :: rest => by
      simp only [decodeList, canonicalList, Bool.and_eq_true]
      exact ⟨decode_canonical x, decodeList_canonical rest⟩

/-- Every decoded pair value is canonical. -/
theorem decodePairs_canonical :
    ∀ items, (decodePairs items).all (fun e => canonical e.2) = true
  | [] => rfl
  | p :: rest => by
      simp only [decodePairs, List.all_cons, Bool.and_eq_true]
      exact ⟨decode_canonical p.2, decodePairs_canonical rest⟩

end

mutual

/-- A node freshly built from a canonical value decodes back to it. -/
theorem decode_createNode :
    ∀ v, canonical v = true → decode (createNode v) = v
  | .prim _, _ => rfl
  | .arr xs, h => by
      simp only [canonical] at h
      simp only [createNode, decode, decode_createNodeList xs h]
  | .obj l, h => by
      simp only [canonical, Bool.and_eq_true] at h
      simp only [createNode, decode,
        decode_createNodePairs l h.2, YVal.obj.injEq]
      exact objFold_nodup l (of_decide_eq_true h.1)

/-- Fresh element nodes decode back to canonical elements. -/
theorem decode_createNodeList :
    ∀ xs, canonicalList xs = true → decodeList (createNodeList xs) = xs
  | [], _ => rfl
  | v :: vs, h => by
      simp only [canonicalList, Bool.and_eq_true] at h
      simp only [createNodeList, decodeList, decode_createNode v h.1,
        decode_createNodeList vs h.2]

/-- Fresh property pairs decode back to canonical properties. -/
theorem decode_createNodePairs :
    ∀ l, canonicalObj l = true → decodePairs (createNodePairs l) = l
  | [], _ => rfl
  | e :: rest, h => by
      simp only [canonicalObj, Bool.and_eq_true] at h
      simp only [createNodePairs, decodePairs, decode_createNode e.2 h.1,
        decode_createNodePairs rest h.2, stringifyKey]

end

/-- A pair key that behaves plainly in the merge: a scalar string key,
for which the merge lookup string and the decoded property name agree.
A null key decodes under the empty-string property but is looked up
under the string null, and a number or boolean key is looked up under
a string it may not decode to, or under no string at all. -/
def goodKey : Prim → Bool
  | .str _ => true
  | _ => false

/-- A mapping whose pairs all carry scalar string keys with no two
stringified keys equal. -/
def pairsGood (items : List MPair) : Bool :=
  items.all (fun p => goodKey p.1.1) &&
  decide ((items.map (fun p => stringifyKey p.1.1)).Nodup)

/-- Every member of the mapping whose value is itself a mapping has
good keys in that inner mapping. -/
def mapValuesGood (items : List MPair) : Bool :=
  items.all (fun q => match q.2 with
    | .map w _ => pairsGood w
    | _ => true)

/-- Good keys on the three levels the surgical merge rewrites: the top
mapping, every top-level value that is a mapping, and every member of
such a value that is itself a mapping. -/
def goodKeys3 (items : List MPair) : Bool :=
  pairsGood items &&
  items.all (fun p => match p.2 with
    | .map g _ => pairsGood g && mapValuesGood g
    | _ => true)

/-- Only mapping nodes decode to objects. -/
theorem decode_obj_shape (n : Node) (l : List (String × YVal))
    (h : decode n = .obj l) : ∃ items m, n = .map items m := by
  cases n with
  | scalar p m => exact absurd h (by simp [decode])
  | seq xs m => exact absurd h (by simp [decode])
  | map items m => exact ⟨items, m, rfl⟩

/-- In a list with pairwise distinct keys, membership determines the
lookup. -/
theorem lookup_eq_of_mem {β : Type} (l : List (String × β)) (k : String)
    (v : β) (hnd : (l.map Prod.fst).Nodup) (h : (k, v) ∈ l) :
    l.lookup k = some v := by
  induction l with
  | nil => cases h
  | cons e rest ih =>
      rcases List.mem_cons.mp h with h1 | h1
      · subst h1
        simp [List.lookup_cons]
      · obtain ⟨e1, e2⟩ := e
        have hk : ¬(k == e1) = true := by
          simp only [List.map_cons, List.nodup_cons] at hnd
          intro hkk
          have : k = e1 := by simpa using hkk
          subst this
          exact hnd.1 (List.mem_map_of_mem Prod.fst h1)
        simp only [List.lookup_cons]
        rw [Bool.eq_false_iff.mpr hk]
        exact ih (by simp only [List.map_cons, List.nodup_cons] at hnd; exact hnd.2) h1

/-- For a good key, the merge lookup is plain string equality with the
stringified key. -/
theorem keyMatches_goodKey (k : Prim) (s : String) (h : goodKey k = true) :
    keyMatches k s = (stringifyKey k == s) := by
  cases k with
  | str t =>
      simp only [keyMatches, keyValueStr, stringifyKey]
      by_cases he : t = s
      · simp [he]
      · simp [he, Option.some.injEq]
  | num n => simp [goodKey] at h
  | bool b => simp [goodKey] at h
  | null => simp [goodKey] at h

/-- replaceFirst keeps every key node with its metadata. -/
theorem replaceFirst_keys (items : List MPair) (k : String) (v : Node) :
    (replaceFirst items k v).map (fun p => p.1) =
      items.map (fun p => p.1) := by
  induction items with
  | nil => rfl
  | cons p rest ih =>
      by_cases h : keyMatches p.1.1 k <;>
        simp [replaceFirst, h, ih]

/-- replaceFirst with no matching key changes nothing. -/
theorem replaceFirst_no_match (items : List MPair) (k : String) (v : Node)
    (h : ∀ p ∈ items, keyMatches p.1.1 k = false) :
    replaceFirst items k v = items := by
  induction items with
  | nil => rfl
  | cons p rest ih =>
      have hp := h p (by simp)
      simp only [replaceFirst, hp, Bool.false_eq_true, if_false]
      rw [ih (fun q hq => h q (by simp [hq]))]

/-- Replacing the value of the uniquely matching pair with a node that
decodes the same keeps the decoded pair list unchanged. -/
theorem decodePairs_replaceFirst (items : List MPair) (k : String)
    (v : Node)
    (hga : items.all (fun p => goodKey p.1.1) = true)
    (hin : (decodePairs items).lookup k = some (decode v)) :
    decodePairs (replaceFirst items k v) = decodePairs items := by
  induction items with
  | nil => rfl
  | cons p rest ih =>
      rw [List.all_cons, Bool.and_eq_true] at hga
      have hm := keyMatches_goodKey p.1.1 k hga.1
      by_cases h : stringifyKey p.1.1 = k
      · subst h
        simp only [decodePairs, List.lookup_cons, beq_self_eq_true,
          Option.some.injEq] at hin
        have hm2 : keyMatches p.1.1 (stringifyKey p.1.1) = true := by
          rw [hm]
          simp
        simp only [replaceFirst, hm2, if_true, reduceIte, decodePairs]
        rw [hin]
      · have hm2 : keyMatches p.1.1 k = false := by
          rw [hm]
          simpa using h
        have hbeq : (k == stringifyKey p.1.1) = false :=
          beq_eq_false_iff_ne.mpr (Ne.symm h)
        simp only [decodePairs, List.lookup_cons, hbeq] at hin
        simp only [replaceFirst, hm2, Bool.false_eq_true, if_false,
          decodePairs]
        rw [ih hga.2 hin]

/-- A key present in the decoded pair list is found by the merge lookup
when all keys are good. -/
theorem any_keyMatches_of_lookup (items : List MPair) (k : String)
    (v : YVal) (hga : items.all (fun p => goodKey p.1.1) = true)
    (hin : (decodePairs items).lookup k = some v) :
    items.any (fun p => keyMatches p.1.1 k) = true := by
  induction items with
  | nil => simp [decodePairs] at hin
  | cons p rest ih =>
      rw [List.all_cons, Bool.and_eq_true] at hga
      by_cases h : stringifyKey p.1.1 = k
      · have : keyMatches p.1.1 k = true := by
          rw [keyMatches_goodKey p.1.1 k hga.1]
          simpa using h
        simp [this]
      · have hbeq : (k == stringifyKey p.1.1) = false :=
          beq_eq_false_iff_ne.mpr (Ne.symm h)
        simp only [decodePairs, List.lookup_cons, hbeq] at hin
        simp only [List.any_cons, Bool.or_eq_true]
        exact Or.inr (ih hga.2 hin)

/-- All-goodness of keys is untouched by replaceFirst. -/
theorem all_goodKey_replaceFirst (items : List MPair) (k : String)
    (v : Node) (hga : items.all (fun p => goodKey p.1.1) = true) :
    (replaceFirst items k v).all (fun p => goodKey p.1.1) = true := by
  induction items with
  | nil => rfl
  | cons p rest ih =>
      rw [List.all_cons, Bool.and_eq_true] at hga
      cases h : keyMatches p.1.1 k
      · simp only [replaceFirst, h, Bool.false_eq_true, if_false,
          List.all_cons, Bool.and_eq_true]
        exact ⟨hga.1, ih hga.2⟩
      · simp only [replaceFirst, h, if_true, reduceIte, List.all_cons,
          Bool.and_eq_true]
        exact ⟨hga.1, hga.2⟩

/-- The member loop of the reconcile step, fed entries that all occur
in the decoded pair list of a good-keyed mapping, never throws and
keeps both the decoded pair list and the key nodes unchanged. -/
theorem reconcileEntries_sig (N : List (String × YVal))
    (wItems : List MPair)
    (hga : wItems.all (fun p => goodKey p.1.1) = true)
    (hN : ∀ e ∈ N, (decodePairs wItems).lookup e.1 = some e.2 ∧
      canonical e.2 = true) :
    ∃ w2, reconcileEntries wItems N = .ok w2 ∧
      decodePairs w2 = decodePairs wItems ∧
      w2.map (fun p => p.1) = wItems.map (fun p => p.1) := by
  induction N generalizing wItems with
  | nil => exact ⟨wItems, rfl, rfl, rfl⟩
  | cons e rest ih =>
      obtain ⟨hlk, hcan⟩ := hN e (by simp)
      have hany := any_keyMatches_of_lookup wItems e.1 e.2 hga hlk
      have hdec : decode (createNode e.2) = e.2 := decode_createNode e.2 hcan
      have hrepl := decodePairs_replaceFirst wItems e.1 (createNode e.2)
        hga (by rw [hdec]; exact hlk)
      have hkeys := replaceFirst_keys wItems e.1 (createNode e.2)
      have hga2 := all_goodKey_replaceFirst wItems e.1 (createNode e.2) hga
      obtain ⟨w2, hrec, hsig, hk⟩ := ih
        (replaceFirst wItems e.1 (createNode e.2)) hga2
        (by intro f hf
            rw [hrepl]
            exact hN f (by simp [hf]))
      refine ⟨w2, ?_, ?_, ?_⟩
      · simp only [reconcileEntries, hany, if_true, reduceIte]
        exact hrec
      · rw [hsig, hrepl]
      · rw [hk, hkeys]

/-- The removal filter keeps everything when every stringified key is
good and listed among the new keys. -/
theorem filterNewKeys_all_kept (items : List MPair) (newKeys : List String)
    (hga : items.all (fun p => goodKey p.1.1) = true)
    (hmem : ∀ p ∈ items, stringifyKey p.1.1 ∈ newKeys) :
    filterNewKeys items newKeys = items := by
  rw [filterNewKeys, List.filter_eq_self]
  intro p hp
  rw [List.all_eq_true] at hga
  have hg := hga p hp
  cases hk : p.1.1 with
  | str t =>
      have := hmem p hp
      rw [hk] at this
      simp only [hk, keyValueStr]
      simpa [stringifyKey] using this
  | num n => rw [hk] at hg; simp [goodKey] at hg
  | bool b => rw [hk] at hg; simp [goodKey] at hg
  | null => rw [hk] at hg; simp [goodKey] at hg

/-- Unfolded form of pairsGood. -/
theorem pairsGood_iff (items : List MPair) :
    pairsGood items = true ↔
      (items.all (fun p => goodKey p.1.1) = true ∧
        (items.map (fun p => stringifyKey p.1.1)).Nodup) := by
  simp [pairsGood, decide_eq_true_eq]

/-- The keys of the decoded pair list are the stringified node keys. -/
theorem decodePairs_fst (items : List MPair) :
    (decodePairs items).map Prod.fst =
      items.map (fun p => stringifyKey p.1.1) := by
  induction items with
  | nil => rfl
  | cons p rest ih => simp [decodePairs, ih]

/-- Key-node equality transports key goodness. -/
theorem all_goodKey_of_keys_eq (a b : List MPair)
    (hk : b.map (fun p => p.1) = a.map (fun p => p.1))
    (h : a.all (fun p => goodKey p.1.1) = true) :
    b.all (fun p => goodKey p.1.1) = true := by
  rw [List.all_eq_true] at h ⊢
  intro p hp
  have h1 : p.1 ∈ b.map (fun q => q.1) := List.mem_map_of_mem _ hp
  rw [hk] at h1
  rcases List.mem_map.mp h1 with ⟨q, hq, hq1⟩
  rw [show p.1.1 = q.1.1 from by rw [hq1]]
  exact h q hq

/-- Key-node equality transports stringified-key distinctness. -/
theorem nodup_of_keys_eq (a b : List MPair)
    (hk : b.map (fun p => p.1) = a.map (fun p => p.1))
    (h : (a.map (fun p => stringifyKey p.1.1)).Nodup) :
    (b.map (fun p => stringifyKey p.1.1)).Nodup := by
  have hb : b.map (fun p => stringifyKey p.1.1) =
      (b.map (fun p => p.1)).map (fun q => stringifyKey q.1) := by
    simp [List.map_map, Function.comp]
  have ha : a.map (fun p => stringifyKey p.1.1) =
      (a.map (fun p => p.1)).map (fun q => stringifyKey q.1) := by
    simp [List.map_map, Function.comp]
  rw [hb, hk, ← ha]
  exact h

/-- Binding a successful Except value applies the continuation. -/
theorem exceptBindOk {α β : Type} (a : α) (f : α → Except JSErr β) :
    (Except.ok a >>= f) = f a := rfl

/-- Updating one section option whose value is exactly the decode of
the located pair value (the no-edit situation) never throws and keeps
the decoded pair list, the key nodes, and inner-mapping key goodness
unchanged. -/
theorem updateGameOption_sig (gItems : List MPair) (opt : ParsedOption)
    (hga : gItems.all (fun p => goodKey p.1.1) = true)
    (hmv : mapValuesGood gItems = true)
    (hopt : (decodePairs gItems).lookup opt.key = some opt.value) :
    ∃ g2, updateGameOption gItems opt = .ok g2 ∧
      decodePairs g2 = decodePairs gItems ∧
      g2.map (fun p => p.1) = gItems.map (fun p => p.1) ∧
      mapValuesGood g2 = true := by
  induction gItems with
  | nil => simp [decodePairs] at hopt
  | cons p rest ih =>
      rw [List.all_cons, Bool.and_eq_true] at hga
      rw [mapValuesGood, List.all_cons, Bool.and_eq_true] at hmv
      have hmv1 := hmv.1
      have hmv2 : mapValuesGood rest = true := hmv.2
      have hm := keyMatches_goodKey p.1.1 opt.key hga.1
      by_cases h : stringifyKey p.1.1 = opt.key
      · have hmatch : keyMatches p.1.1 opt.key = true := by
          rw [hm]
          simpa using h
        have hval : opt.value = decode p.2 := by
          have hbeq : (opt.key == stringifyKey p.1.1) = true := by
            simp [h]
          simp only [decodePairs, List.lookup_cons, hbeq,
            Option.some.injEq] at hopt
          exact hopt.symm
        have hcan : canonical opt.value = true := by
          rw [hval]
          exact decode_canonical p.2
        cases hv : opt.value with
        | obj N =>
            rcases decode_obj_shape p.2 N (by rw [← hv, hval]) with
              ⟨wI, wm, hw⟩
            have hpg : pairsGood wI = true := by
              have := hmv1
              rw [hw] at this
              exact this
            rcases (pairsGood_iff wI).mp hpg with ⟨hwga, hwnd⟩
            have hndW : ((decodePairs wI).map Prod.fst).Nodup := by
              rw [decodePairs_fst]
              exact hwnd
            have hNW : N = decodePairs wI := by
              have : decode p.2 = .obj (objFold (decodePairs wI)) := by
                rw [hw]
                rfl
              rw [← hval, hv] at this
              rw [objFold_nodup (decodePairs wI) hndW] at this
              exact (YVal.obj.injEq _ _).mp this
            have hNall := decodePairs_canonical wI
            obtain ⟨w2, hrec, hsigw, hkw⟩ :=
              reconcileEntries_sig N wI hwga
              (by intro e he
                  rw [hNW] at he
                  constructor
                  · exact lookup_eq_of_mem (decodePairs wI) e.1 e.2 hndW
                      (by cases e; exact he)
                  · rw [List.all_eq_true] at hNall
                    exact hNall e he)
            have hw2ga := all_goodKey_of_keys_eq wI w2 hkw hwga
            have hfil : filterNewKeys w2 (N.map (fun e => e.1)) = w2 := by
              apply filterNewKeys_all_kept w2 _ hw2ga
              intro q hq
              have h1 : q.1 ∈ w2.map (fun r => r.1) :=
                List.mem_map_of_mem _ hq
              rw [hkw] at h1
              rcases List.mem_map.mp h1 with ⟨r, hr, hr1⟩
              rw [hNW, decodePairs_fst]
              rw [show stringifyKey q.1.1 = stringifyKey r.1.1 from by
                rw [hr1]]
              exact List.mem_map_of_mem _ hr
            refine ⟨(p.1, .map w2 wm) :: rest, ?_, ?_, ?_, ?_⟩
            · simp only [updateGameOption, hmatch, if_true, reduceIte, hv,
                hw]
              simp only [mapReconcile, hrec, exceptBindOk, hfil]
            · have hdec2 : decode (Node.map w2 wm) = decode p.2 := by
                rw [hw]
                show YVal.obj (objFold (decodePairs w2)) =
                  YVal.obj (objFold (decodePairs wI))
                rw [hsigw]
              simp only [decodePairs, hdec2]
            · simp
            · rw [mapValuesGood, List.all_cons, Bool.and_eq_true]
              constructor
              · have : pairsGood w2 = true := by
                  rw [pairsGood_iff]
                  exact ⟨hw2ga, nodup_of_keys_eq wI w2 hkw hwnd⟩
                simpa using this
              · exact hmv2
        | prim q =>
            refine ⟨(p.1, createNode opt.value) :: rest, ?_, ?_, ?_, ?_⟩
            · cases p2 : p.2 <;>
                simp only [updateGameOption, hmatch, if_true, reduceIte, hv]
            · simp only [decodePairs]
              rw [decode_createNode opt.value hcan, hval]
            · simp
            · rw [mapValuesGood, List.all_cons, Bool.and_eq_true]
              exact ⟨by simp [hv, createNode], hmv2⟩
        | arr xs =>
            refine ⟨(p.1, createNode opt.value) :: rest, ?_, ?_, ?_, ?_⟩
            · cases p2 : p.2 <;>
                simp only [updateGameOption, hmatch, if_true, reduceIte, hv]
            · simp only [decodePairs]
              rw [decode_createNode opt.value hcan, hval]
            · simp
            · rw [mapValuesGood, List.all_cons, Bool.and_eq_true]
              exact ⟨by simp [hv, createNode], hmv2⟩
      · have hmatch : keyMatches p.1.1 opt.key = false := by
          rw [hm]
          simpa using h
        have hbeq : (opt.key == stringifyKey p.1.1) = false :=
          beq_eq_false_iff_ne.mpr (Ne.symm h)
        simp only [decodePairs, List.lookup_cons, hbeq] at hopt
        obtain ⟨r2, hr, hsig, hk, hm2⟩ := ih hga.2 hmv2 hopt
        refine ⟨p :: r2, ?_, ?_, ?_, ?_⟩
        · simp only [updateGameOption, hmatch, Bool.false_eq_true,
            if_false, hr, exceptBindOk]
        · simp only [decodePairs, hsig]
        · simp only [List.map_cons, hk]
        · rw [mapValuesGood, List.all_cons, Bool.and_eq_true]
          exact ⟨hmv1, hm2⟩

/-- Folding the section-option update over options whose values are the
decodes of their located pairs keeps the decoded pair list, the key
nodes, and inner-mapping key goodness unchanged. -/
theorem updateGameOptions_sig (opts : List ParsedOption)
    (gItems : List MPair)
    (hga : gItems.all (fun p => goodKey p.1.1) = true)
    (hmv : mapValuesGood gItems = true)
    (hopts : ∀ o ∈ opts,
      (decodePairs gItems).lookup o.key = some o.value) :
    ∃ g2, updateGameOptions gItems opts = .ok g2 ∧
      decodePairs g2 = decodePairs gItems ∧
      g2.map (fun p => p.1) = gItems.map (fun p => p.1) := by
  induction opts generalizing gItems with
  | nil => exact ⟨gItems, rfl, rfl, rfl⟩
  | cons o rest ih =>
      obtain ⟨g1, h1, hsig1, hk1, hmv1⟩ :=
        updateGameOption_sig gItems o hga hmv (hopts o (by simp))
      obtain ⟨g2, h2, hsig2, hk2⟩ := ih g1
        (all_goodKey_of_keys_eq gItems g1 hk1 hga) hmv1
        (by intro q hq
            rw [hsig1]
            exact hopts q (by simp [hq]))
      refine ⟨g2, ?_, ?_, ?_⟩
      · simp only [updateGameOptions, h1, exceptBindOk, h2]
      · rw [hsig2, hsig1]
      · rw [hk2, hk1]

/-- Updating one game section with options matching the decodes of the
located mapping keeps the decoded top-level pair list and the top key
nodes unchanged, and never throws. -/
theorem updateGameSection_sig (topItems : List MPair) (g : String)
    (opts : List ParsedOption)
    (hga : topItems.all (fun p => goodKey p.1.1) = true)
    (hsec : ∀ p ∈ topItems, stringifyKey p.1.1 = g →
      (match p.2 with
        | .map gI _ => pairsGood gI = true ∧ mapValuesGood gI = true ∧
            ∀ o ∈ opts, (decodePairs gI).lookup o.key = some o.value
        | _ => True)) :
    ∃ t2, updateGameSection topItems g opts = .ok t2 ∧
      decodePairs t2 = decodePairs topItems ∧
      t2.map (fun p => p.1) = topItems.map (fun p => p.1) := by
  induction topItems with
  | nil => exact ⟨[], rfl, rfl, rfl⟩
  | cons p rest ih =>
      rw [List.all_cons, Bool.and_eq_true] at hga
      have hm := keyMatches_goodKey p.1.1 g hga.1
      by_cases h : stringifyKey p.1.1 = g
      · have hmatch : keyMatches p.1.1 g = true := by
          rw [hm]
          simpa using h
        have hp := hsec p (by simp) h
        cases p2 : p.2 with
        | map gI gm =>
            rw [p2] at hp
            obtain ⟨hpg, hmvg, hlk⟩ := hp
            rcases (pairsGood_iff gI).mp hpg with ⟨hgga, hgnd⟩
            obtain ⟨g2, hg2, hsig2, hk2⟩ :=
              updateGameOptions_sig opts gI hgga hmvg hlk
            refine ⟨(p.1, .map g2 gm) :: rest, ?_, ?_, ?_⟩
            · simp only [updateGameSection, hmatch, if_true, reduceIte,
                p2, hg2, exceptBindOk]
            · have hdec2 : decode (Node.map g2 gm) = decode p.2 := by
                rw [p2]
                show YVal.obj (objFold (decodePairs g2)) =
                  YVal.obj (objFold (decodePairs gI))
                rw [hsig2]
              simp only [decodePairs, hdec2]
            · simp
        | scalar q qm =>
            refine ⟨p :: rest, ?_, rfl, rfl⟩
            simp only [updateGameSection, hmatch, if_true, reduceIte, p2]
        | seq xs xm =>
            refine ⟨p :: rest, ?_, rfl, rfl⟩
            simp only [updateGameSection, hmatch, if_true, reduceIte, p2]
      · have hmatch : keyMatches p.1.1 g = false := by
          rw [hm]
          simpa using h
        obtain ⟨r2, hr, hsig, hk⟩ := ih hga.2
          (fun q hq hqg => hsec q (by simp [hq]) hqg)
        refine ⟨p :: r2, ?_, ?_, ?_⟩
        · simp only [updateGameSection, hmatch, Bool.false_eq_true,
            if_false, hr, exceptBindOk]
        · simp only [decodePairs, hsig]
        · simp only [List.map_cons, hk]

/-- A successful lookup comes from a member of the list. -/
theorem mem_of_lookup {β : Type} (l : List (String × β)) (k : String)
    (v : β) (h : l.lookup k = some v) : (k, v) ∈ l := by
  induction l with
  | nil => simp [List.lookup] at h
  | cons e rest ih =>
      obtain ⟨a, b⟩ := e
      cases hbeq : (k == a)
      · simp only [List.lookup_cons, hbeq] at h
        exact List.mem_cons_of_mem _ (ih h)
      · simp only [List.lookup_cons, hbeq, Option.some.injEq] at h
        have hk : k = a := by simpa using hbeq
        subst hk
        subst h
        exact List.mem_cons_self _ _

/-- Folding the root-option update over options whose values are the
decodes found under their keys keeps the decoded top-level pair list
and the top key nodes unchanged. -/
theorem updateRootOptions_sig (ro : List ParsedOption)
    (items : List MPair)
    (hga : items.all (fun p => goodKey p.1.1) = true)
    (hro : ∀ o ∈ ro, (decodePairs items).lookup o.key = some o.value) :
    decodePairs (ro.foldl updateRootOption items) = decodePairs items ∧
      (ro.foldl updateRootOption items).map (fun p => p.1) =
        items.map (fun p => p.1) := by
  induction ro generalizing items with
  | nil => exact ⟨rfl, rfl⟩
  | cons o rest ih =>
      have hlk := hro o (by simp)
      have hcan : canonical o.value = true := by
        have hmem := mem_of_lookup (decodePairs items) o.key o.value hlk
        have := decodePairs_canonical items
        rw [List.all_eq_true] at this
        exact this (o.key, o.value) hmem
      have hdec : decode (createNode o.value) = o.value :=
        decode_createNode o.value hcan
      have hrepl := decodePairs_replaceFirst items o.key
        (createNode o.value) hga (by rw [hdec]; exact hlk)
      have hkeys := replaceFirst_keys items o.key (createNode o.value)
      have hga2 := all_goodKey_replaceFirst items o.key
        (createNode o.value) hga
      obtain ⟨hsig, hk⟩ := ih
        (replaceFirst items o.key (createNode o.value)) hga2
        (by intro q hq
            rw [show replaceFirst items o.key (createNode o.value) =
              updateRootOption items o from rfl] at *
            rw [hrepl]
            exact hro q (by simp [hq]))
      constructor
      · simp only [List.foldl_cons]
        rw [show updateRootOption items o =
          replaceFirst items o.key (createNode o.value) from rfl]
        rw [hsig, hrepl]
      · simp only [List.foldl_cons]
        rw [show updateRootOption items o =
          replaceFirst items o.key (createNode o.value) from rfl]
        rw [hk, hkeys]

/-- On an object decode, root extraction never throws and every
extracted option carries the value found under its key. -/
theorem extractRoots_obj (L : List (String × YVal)) (document : Doc) :
    ∀ ks, ∃ ro, extractRoots (.obj L) document ks = .ok ro ∧
      ∀ o ∈ ro, L.lookup o.key = some o.value ∧ o.key ∈ ks
  | [] => ⟨[], rfl, by intro o ho; cases ho⟩
  | k :: rest => by
      obtain ⟨ro, hro, hmem⟩ := extractRoots_obj L document rest
      cases hlk : L.lookup k with
      | none =>
          refine ⟨ro, ?_, ?_⟩
          · simp only [extractRoots, jsGet, exceptBindOk, hro, hlk]
          · intro o ho
            exact ⟨(hmem o ho).1, List.mem_cons_of_mem _ (hmem o ho).2⟩
      | some v =>
          refine ⟨mkOption document none k v :: ro, ?_, ?_⟩
          · simp only [extractRoots, jsGet, exceptBindOk, hro, hlk]
          · intro o ho
            rcases List.mem_cons.mp ho with h1 | h1
            · subst h1
              exact ⟨hlk, by simp [mkOption]⟩
            · exact ⟨(hmem o h1).1, List.mem_cons_of_mem _ (hmem o h1).2⟩

/-- The game-section loop produces exactly one section per enumerated
non-root entry whose value has typeof object, in order. -/
theorem extractGames_eq (parsed : YVal) (document : Doc) :
    extractGames parsed document =
      ((enumEntries parsed).filter
        (fun e => !(rootKeys.contains e.1) && typeofObjectNotNull e.2)).map
        (fun e => (e.1, (enumEntries e.2).map
          (fun s => mkOption document (some e.1) s.1 s.2))) := by
  rw [extractGames]
  suffices hgen : ∀ (l : List (String × YVal))
      (acc : List (String × List ParsedOption)), List.foldl
      (fun acc e =>
        if rootKeys.contains e.1 then acc
        else if typeofObjectNotNull e.2 then
          acc ++ [(e.1, (enumEntries e.2).map
            (fun s => mkOption document (some e.1) s.1 s.2))]
        else acc) acc l =
      acc ++ (l.filter
        (fun e => !(rootKeys.contains e.1) && typeofObjectNotNull e.2)).map
        (fun e => (e.1, (enumEntries e.2).map
          (fun s => mkOption document (some e.1) s.1 s.2))) by
    simpa using hgen (enumEntries parsed) []
  intro l
  induction l with
  | nil => intro acc; simp
  | cons e rest ih =>
      intro acc
      by_cases hroot : rootKeys.contains e.1
      · simp only [List.foldl_cons, hroot, if_true, reduceIte,
          List.filter_cons, Bool.not_true, Bool.false_and]
        exact ih acc
      · have hr : rootKeys.contains e.1 = false := eq_false_of_ne_true hroot
        cases hobj : typeofObjectNotNull e.2
        · simp only [List.foldl_cons, hr, Bool.false_eq_true, if_false,
            hobj, List.filter_cons, Bool.not_false, Bool.true_and]
          exact ih acc
        · simp only [List.foldl_cons, hr, Bool.false_eq_true, if_false,
            hobj, if_true, reduceIte, List.filter_cons, Bool.not_false,
            Bool.true_and, List.map_cons]
          rw [ih (acc ++ [(e.1, (enumEntries e.2).map
            (fun s => mkOption document (some e.1) s.1 s.2))])]
          simp

/-- Every pair of an updated section list is an original pair except
possibly the pair matching the section name. -/
theorem updateGameSection_mem (topItems : List MPair) (g : String)
    (opts : List ParsedOption) (t2 : List MPair)
    (h : updateGameSection topItems g opts = .ok t2) :
    ∀ q ∈ t2, q ∈ topItems ∨ keyMatches q.1.1 g = true := by
  induction topItems generalizing t2 with
  | nil =>
      simp only [updateGameSection, Except.ok.injEq] at h
      subst h
      intro q hq
      cases hq
  | cons p rest ih =>
      cases hmatch : keyMatches p.1.1 g
      · rw [updateGameSection] at h
        rw [hmatch] at h
        simp only [Bool.false_eq_true, if_false] at h
        cases hr : updateGameSection rest g opts with
        | error e =>
            rw [hr] at h
            exact absurd h (fun hh => Except.noConfusion hh)
        | ok r2 =>
            rw [hr, exceptBindOk, Except.ok.injEq] at h
            subst h
            intro q hq
            rcases List.mem_cons.mp hq with h1 | h1
            · exact Or.inl (by simp [h1])
            · rcases ih r2 hr q h1 with h2 | h2
              · exact Or.inl (List.mem_cons_of_mem _ h2)
              · exact Or.inr h2
      · rw [updateGameSection] at h
        rw [hmatch] at h
        simp only [if_true, reduceIte] at h
        cases p2 : p.2 with
        | map gI gm =>
            rw [p2] at h
            replace h : (do
                let gItems2 ← updateGameOptions gI opts
                Except.ok ((p.1, Node.map gItems2 gm) :: rest)) =
                Except.ok t2 := h
            cases hg : updateGameOptions gI opts with
            | error e =>
                rw [hg] at h
                exact absurd h (fun hh => Except.noConfusion hh)
            | ok g2 =>
                rw [hg, exceptBindOk, Except.ok.injEq] at h
                subst h
                intro q hq
                rcases List.mem_cons.mp hq with h1 | h1
                · refine Or.inr ?_
                  rw [show q.1.1 = p.1.1 from by rw [h1]]
                  exact hmatch
                · exact Or.inl (List.mem_cons_of_mem _ h1)
        | scalar v vm =>
            rw [p2] at h
            replace h : Except.ok (p :: rest) = Except.ok t2 := h
            simp only [Except.ok.injEq] at h
            subst h
            intro q hq
            exact Or.inl hq
        | seq xs xm =>
            rw [p2] at h
            replace h : Except.ok (p :: rest) = Except.ok t2 := h
            simp only [Except.ok.injEq] at h
            subst h
            intro q hq
            exact Or.inl hq

/-- Folding the section updates of the merge over sections with
pairwise distinct names, where every section option carries the decode
of its original member, keeps the decoded top-level pair list and the
top key nodes unchanged and never throws. -/
theorem mergeGameSections_sig
    (go : List (String × List ParsedOption)) (t items : List MPair)
    (hgat : t.all (fun p => goodKey p.1.1) = true)
    (hnames : (go.map (fun e => e.1)).Nodup)
    (hgo : ∀ e ∈ go, ∀ p ∈ items, stringifyKey p.1.1 = e.1 →
      (match p.2 with
        | Node.map gI _ => pairsGood gI = true ∧ mapValuesGood gI = true ∧
            ∀ o ∈ e.2, (decodePairs gI).lookup o.key = some o.value
        | _ => True))
    (hsub : ∀ q ∈ t, q ∈ items ∨
      stringifyKey q.1.1 ∉ go.map (fun e => e.1)) :
    ∃ t2, go.foldlM (fun acc e => updateGameSection acc e.1 e.2) t =
        .ok t2 ∧
      decodePairs t2 = decodePairs t ∧
      t2.map (fun p => p.1) = t.map (fun p => p.1) := by
  induction go generalizing t with
  | nil => exact ⟨t, rfl, rfl, rfl⟩
  | cons e rest ih =>
      simp only [List.map_cons, List.nodup_cons] at hnames
      obtain ⟨t1, h1, hsig1, hk1⟩ := updateGameSection_sig t e.1 e.2 hgat
        (by intro p hp hpk
            have hpi : p ∈ items := by
              rcases hsub p hp with h2 | h2
              · exact h2
              · exact absurd (by simp [hpk]) h2
            exact hgo e (by simp) p hpi hpk)
      have hmem1 := updateGameSection_mem t e.1 e.2 t1 h1
      have hgat1 := all_goodKey_of_keys_eq t t1 hk1 hgat
      obtain ⟨t2, h2, hsig2, hk2⟩ := ih t1 hgat1 hnames.2
        (fun f hf => hgo f (by simp [hf]))
        (by intro q hq
            rcases hmem1 q hq with h3 | h3
            · rcases hsub q h3 with h4 | h4
              · exact Or.inl h4
              · refine Or.inr ?_
                intro h5
                exact h4 (by simp [h5])
            · refine Or.inr ?_
              have hgq : goodKey q.1.1 = true := by
                rw [List.all_eq_true] at hgat1
                exact hgat1 q hq
              have hqs : stringifyKey q.1.1 = e.1 := by
                rw [keyMatches_goodKey q.1.1 e.1 hgq] at h3
                simpa using h3
              rw [hqs]
              exact hnames.1)
      refine ⟨t2, ?_, ?_, ?_⟩
      · simp only [List.foldlM_cons, h1, exceptBindOk, h2]
      · rw [hsig2, hsig1]
      · rw [hk2, hk1]

/-- Every pair after replaceFirst is an original pair except possibly
the matching one. -/
theorem replaceFirst_mem (items : List MPair) (k : String) (v : Node) :
    ∀ q ∈ replaceFirst items k v, q ∈ items ∨ keyMatches q.1.1 k = true := by
  induction items with
  | nil => intro q hq; cases hq
  | cons p rest ih =>
      intro q hq
      cases hmatch : keyMatches p.1.1 k
      · rw [replaceFirst, hmatch] at hq
        simp only [Bool.false_eq_true, if_false] at hq
        rcases List.mem_cons.mp hq with h1 | h1
        · exact Or.inl (by simp [h1])
        · rcases ih q h1 with h2 | h2
          · exact Or.inl (List.mem_cons_of_mem _ h2)
          · exact Or.inr h2
      · rw [replaceFirst, hmatch] at hq
        simp only [if_true, reduceIte] at hq
        rcases List.mem_cons.mp hq with h1 | h1
        · refine Or.inr ?_
          rw [show q.1.1 = p.1.1 from by rw [h1]]
          exact hmatch
        · exact Or.inl (List.mem_cons_of_mem _ h1)

/-- Every pair after all root-option updates is an original pair except
possibly a pair matching some root-option key. -/
theorem updateRootOptions_mem (ro : List ParsedOption)
    (items : List MPair) :
    ∀ q ∈ ro.foldl updateRootOption items,
      q ∈ items ∨ ∃ o ∈ ro, keyMatches q.1.1 o.key = true := by
  induction ro generalizing items with
  | nil => intro q hq; exact Or.inl hq
  | cons o rest ih =>
      intro q hq
      simp only [List.foldl_cons] at hq
      rcases ih (updateRootOption items o) q hq with h1 | h1
      · rcases replaceFirst_mem items o.key (createNode o.value) q h1 with
          h2 | h2
        · exact Or.inl h2
        · exact Or.inr ⟨o, by simp, h2⟩
      · rcases h1 with ⟨o2, ho2, hk2⟩
        exact Or.inr ⟨o2, by simp [ho2], hk2⟩

/-- The no-edit surgical merge on a top-level mapping with good keys on
the three rewritten levels: it succeeds and the result decodes to the
decode of the original tree. -/
theorem mergeAttempt_noop (items : List MPair) (m : Meta)
    (pt : ParsedTemplate)
    (hgood : goodKeys3 items = true)
    (hpt : parseYamlTemplate (some (.map items m)) = .ok pt) :
    ∃ t2, mergeAttempt pt.rootOptions pt.gameOptions (.map items m) =
        .ok (.map t2 m) ∧
      decodePairs t2 = decodePairs items := by
  rw [goodKeys3, Bool.and_eq_true] at hgood
  obtain ⟨hpg, hinner⟩ := hgood
  rcases (pairsGood_iff items).mp hpg with ⟨hga, hnd⟩
  have hLnd : ((decodePairs items).map Prod.fst).Nodup := by
    rw [decodePairs_fst]
    exact hnd
  have hLid : objFold (decodePairs items) = decodePairs items :=
    objFold_nodup _ hLnd
  obtain ⟨ro, hro, hrofacts⟩ :=
    extractRoots_obj (objFold (decodePairs items))
      (some (.map items m)) rootKeys
  have hparse : parseYamlTemplate (some (.map items m)) =
      Except.ok (ParsedTemplate.mk ro
        (extractGames (YVal.obj (objFold (decodePairs items)))
          (some (.map items m)))
        (YVal.obj (objFold (decodePairs items)))
        (some (.map items m))) := by
    show (extractRoots (YVal.obj (objFold (decodePairs items)))
        (some (.map items m)) rootKeys >>= fun r =>
        Except.ok (ParsedTemplate.mk r
          (extractGames (YVal.obj (objFold (decodePairs items)))
            (some (.map items m)))
          (YVal.obj (objFold (decodePairs items)))
          (some (.map items m)))) = _
    rw [hro, exceptBindOk]
  rw [hparse, Except.ok.injEq] at hpt
  subst hpt
  set go := extractGames (YVal.obj (objFold (decodePairs items)))
    (some (.map items m)) with hgo_def
  have hgo_eq : go = ((decodePairs items).filter
      (fun e => !(rootKeys.contains e.1) && typeofObjectNotNull e.2)).map
      (fun e => (e.1, (enumEntries e.2).map
        (fun s => mkOption (some (.map items m)) (some e.1) s.1 s.2))) := by
    rw [hgo_def, extractGames_eq]
    rw [show enumEntries (YVal.obj (objFold (decodePairs items))) =
      objFold (decodePairs items) from rfl]
    rw [hLid]
  have hro_lk : ∀ o ∈ ro, (decodePairs items).lookup o.key =
      some o.value := by
    intro o ho
    have := (hrofacts o ho).1
    rw [hLid] at this
    exact this
  obtain ⟨hsig1, hk1⟩ := updateRootOptions_sig ro items hga hro_lk
  set t1 := ro.foldl updateRootOption items with ht1_def
  have hgat1 : t1.all (fun p => goodKey p.1.1) = true :=
    all_goodKey_of_keys_eq items t1 hk1 hga
  have hnames : (go.map (fun e => e.1)).Nodup := by
    rw [hgo_eq, List.map_map]
    have hsub1 : (((decodePairs items).filter
        (fun e => !(rootKeys.contains e.1) && typeofObjectNotNull e.2)).map
        Prod.fst).Sublist ((decodePairs items).map Prod.fst) :=
      List.Sublist.map Prod.fst (List.filter_sublist _)
    exact List.Nodup.sublist hsub1 hLnd
  have hinj : ∀ p ∈ items, ∀ q ∈ items,
      stringifyKey p.1.1 = stringifyKey q.1.1 → p = q := by
    intro p hp q hq he
    exact List.inj_on_of_nodup_map hnd hp hq he
  have hgofacts : ∀ e ∈ go, ∀ p ∈ items, stringifyKey p.1.1 = e.1 →
      (match p.2 with
        | Node.map gI _ => pairsGood gI = true ∧ mapValuesGood gI = true ∧
            ∀ o ∈ e.2, (decodePairs gI).lookup o.key = some o.value
        | _ => True) := by
    intro e he p hp hpk
    rw [hgo_eq] at he
    rcases List.mem_map.mp he with ⟨f, hf, hfe⟩
    have hff := List.mem_filter.mp hf
    rcases List.mem_map.mp (by
      rw [← decodePairs_eq_map]
      exact hff.1 : f ∈ items.map
        (fun p => (stringifyKey p.1.1, decode p.2))) with ⟨p0, hp0, hfp0⟩
    have hpp0 : p = p0 := by
      apply hinj p hp p0 hp0
      rw [hpk, ← hfe, ← hfp0]
    subst hpp0
    cases p2 : p.2 with
    | map gI gm =>
        have hinner2 : pairsGood gI = true ∧ mapValuesGood gI = true := by
          rw [List.all_eq_true] at hinner
          have := hinner p hp
          rw [p2] at this
          simpa using this
        refine ⟨hinner2.1, hinner2.2, ?_⟩
        intro o ho
        rcases (pairsGood_iff gI).mp hinner2.1 with ⟨hgga, hgnd⟩
        have hgndL : ((decodePairs gI).map Prod.fst).Nodup := by
          rw [decodePairs_fst]
          exact hgnd
        have hf2 : f.2 = YVal.obj (decodePairs gI) := by
          rw [← hfp0]
          show decode p.2 = _
          rw [p2]
          show YVal.obj (objFold (decodePairs gI)) = _
          rw [objFold_nodup _ hgndL]
        rw [← hfe] at ho
        simp only at ho
        rw [hf2] at ho
        rcases List.mem_map.mp ho with ⟨s, hs, hso⟩
        have hkey : o.key = s.1 := by rw [← hso]; rfl
        have hval : o.value = s.2 := by rw [← hso]; rfl
        rw [hkey, hval]
        exact lookup_eq_of_mem _ s.1 s.2 hgndL (by cases s; exact hs)
    | scalar v vm => trivial
    | seq xs xm => trivial
  have hsub : ∀ q ∈ t1, q ∈ items ∨
      stringifyKey q.1.1 ∉ go.map (fun e => e.1) := by
    intro q hq
    rcases updateRootOptions_mem ro items q hq with h1 | h1
    · exact Or.inl h1
    · rcases h1 with ⟨o, ho, hk⟩
      refine Or.inr ?_
      have hgq : goodKey q.1.1 = true := by
        rw [List.all_eq_true] at hgat1
        exact hgat1 q hq
      have hqs : stringifyKey q.1.1 = o.key := by
        rw [keyMatches_goodKey q.1.1 o.key hgq] at hk
        simpa using hk
      have hkroot : o.key ∈ rootKeys := (hrofacts o ho).2
      rw [hqs, hgo_eq, List.map_map]
      intro hmemgo
      rcases List.mem_map.mp hmemgo with ⟨f, hf, hf1⟩
      have hff := List.mem_filter.mp hf
      have hcond := hff.2
      rw [Bool.and_eq_true, Bool.not_eq_true'] at hcond
      have : rootKeys.contains f.1 = true := by
        have : (f.1 : String) = o.key := hf1
        rw [this]
        simpa using hkroot
      rw [this] at hcond
      exact absurd hcond.1 (by simp)
  obtain ⟨t2, h2, hsig2, hk2⟩ := mergeGameSections_sig go t1 items hgat1
    hnames hgofacts hsub
  refine ⟨t2, ?_, ?_⟩
  · show (go.foldlM (fun acc e => updateGameSection acc e.1 e.2) t1 >>=
      fun r => Except.ok (Node.map r m)) = _
    rw [h2, exceptBindOk]
  · rw [hsig2, hsig1]

/-- A successful parse retains the document it was given. -/
theorem parse_document_eq (document : Doc) (pt : ParsedTemplate)
    (h : parseYamlTemplate document = .ok pt) : pt.document = document := by
  cases hres : extractRoots (decodeDoc document) document rootKeys with
  | error e =>
      replace h : (extractRoots (decodeDoc document) document rootKeys >>=
        fun r => Except.ok (ParsedTemplate.mk r
          (extractGames (decodeDoc document) document)
          (decodeDoc document) document)) = Except.ok pt := h
      rw [hres] at h
      exact absurd h (fun hh => Except.noConfusion hh)
  | ok ro =>
      replace h : (extractRoots (decodeDoc document) document rootKeys >>=
        fun r => Except.ok (ParsedTemplate.mk r
          (extractGames (decodeDoc document) document)
          (decodeDoc document) document)) = Except.ok pt := h
      rw [hres, exceptBindOk, Except.ok.injEq] at h
      rw [← h]

/-- C1 (amended): no-op round trip.  For every document whose contents
are a top-level mapping with good keys (scalar string keys, unique per
mapping, on the three levels the merge rewrites), parsing and then
immediately exporting with the unmodified root options, game options
and retained document produces a tree whose decode equals the decode of
the original document: same keys, nesting and values. -/
theorem c1_noop_roundtrip_amended (items : List MPair) (m : Meta)
    (pt : ParsedTemplate)
    (hgood : goodKeys3 items = true)
    (hpt : parseYamlTemplate (some (.map items m)) = .ok pt) :
    decode (exportToYaml pt.rootOptions pt.gameOptions
      (some pt.document)) = decodeDoc pt.document := by
  have hdoc : pt.document = some (.map items m) :=
    parse_document_eq _ pt hpt
  obtain ⟨t2, hmerge, hsig⟩ := mergeAttempt_noop items m pt hgood hpt
  rw [hdoc]
  show decode (match mergeAttempt pt.rootOptions pt.gameOptions
      (.map items m) with
    | .ok t => t
    | .error _ => exportFallback pt.rootOptions pt.gameOptions) = _
  rw [hmerge]
  show YVal.obj (objFold (decodePairs t2)) =
    YVal.obj (objFold (decodePairs items))
  rw [hsig]

/-- A concrete document for the round-trip witness: one root option
with a comment, one game section holding a weighted mapping in flow
style with a commented member. -/
def c1WitnessDoc : List MPair :=
  [((.str "name", {commentBefore := some " player"}),
      .scalar (.str "P") {}),
   ((.str "Game", {}), .map
      [((.str "opt", {comment := some " weights"}), .map
          [((.str "a", {commentBefore := some " keep"}),
              .scalar (.num 10) {}),
           ((.str "b", {}), .scalar (.num 5) {})] {flow := true})] {})]

/-- The parse result of the witness document. -/
def c1WitnessPt : ParsedTemplate :=
  match parseYamlTemplate (some (.map c1WitnessDoc {})) with
  | .ok pt => pt
  | .error _ => ⟨[], [], .prim .null, none⟩

/-- Witness for C1: the amended round-trip theorem applied to the
concrete witness document, with both hypotheses discharged by
evaluation. -/
theorem c1_noop_roundtrip_amended_witness :
    goodKeys3 c1WitnessDoc = true ∧
    decode (exportToYaml c1WitnessPt.rootOptions c1WitnessPt.gameOptions
      (some c1WitnessPt.document)) = decodeDoc c1WitnessPt.document :=
  ⟨rfl, c1_noop_roundtrip_amended c1WitnessDoc {} c1WitnessPt rfl rfl⟩

/-- The document whose contents are the plain scalar string abc. -/
def c1ScalarDoc : Doc := some (.scalar (.str "abc") {})

/-- The parse result of the scalar document. -/
def c1ScalarPt : ParsedTemplate :=
  match parseYamlTemplate c1ScalarDoc with
  | .ok pt => pt
  | .error _ => ⟨[], [], .prim .null, none⟩

/-- Counterexample to C1 as stated: the scalar document abc is
syntactically valid and parses without error, yet exporting with the
unmodified options and retained document regenerates an empty mapping,
whose decode is not structurally equal to the original decode. -/
theorem c1_noop_roundtrip_counterexample :
    parseYamlTemplate c1ScalarDoc = .ok c1ScalarPt ∧
    decode (exportToYaml c1ScalarPt.rootOptions c1ScalarPt.gameOptions
      (some c1ScalarPt.document)) = .obj [] ∧
    decodeDoc c1ScalarPt.document = .prim (.str "abc") ∧
    YVal.obj [] ≠ YVal.prim (.str "abc") :=
  ⟨rfl, rfl, rfl, fun h => YVal.noConfusion h⟩

/-- C2: the value classifier is total and implements exactly the
priority order of the specification: sequence to array; mapping to
weighted when every member value is numeric (vacuously including the
empty mapping) and to object otherwise; boolean to boolean; number to
number; anything else to string. -/
theorem c2_classifier_priority :
    (∀ v, determineType v = classifySpec v) ∧
      determineType (.obj []) = OptType.weighted := by
  constructor
  · intro v
    cases v with
    | prim p => cases p <;> rfl
    | arr xs => rfl
    | obj l => rfl
  · rfl

/-- C3: exportToYaml never raises; whenever the surgical-merge path
throws any error, the catch triggers the full-regeneration fallback,
and a result is still produced (the function is total, so text is
always returned). -/
theorem c3_export_catches_merge_errors (ro : List ParsedOption)
    (go : List (String × List ParsedOption)) (contents : Node)
    (e : JSErr) (h : mergeAttempt ro go contents = .error e) :
    exportToYaml ro go (some (some contents)) = exportFallback ro go := by
  cases contents with
  | map items m =>
      show (match mergeAttempt ro go (.map items m) with
        | .ok t => t
        | .error _ => exportFallback ro go) = _
      rw [h]
  | scalar v vm => rfl
  | seq xs xm => rfl

/-- Retained contents that are not a mapping: the surgical merge throws
its invalid-document error on them. -/
def c3BadDoc : Node := .scalar (.str "v") {}

/-- Witness for C3: on the non-mapping contents the surgical merge
throws the invalid-document error, and exportToYaml returns the
fallback regeneration instead of propagating it. -/
theorem c3_export_catches_merge_errors_witness :
    mergeAttempt [] [] c3BadDoc = .error .invalidDocument ∧
      exportToYaml [] [] (some (some c3BadDoc)) =
        exportFallback [] [] :=
  ⟨rfl, c3_export_catches_merge_errors [] [] c3BadDoc
    .invalidDocument rfl⟩

/-- C5 (code behaviour at the failing input): validateYaml answers
valid with no error for the malformed input, because the library
parseDocument it wraps never throws on malformed input, so the catch
branch is dead.  The claim expects valid false with a non-empty
message. -/
theorem c5_validate_always_valid (parseFn : String → YDocument) :
    validateYaml parseFn "key: [unterminated" =
      { valid := true, error := none } := rfl

/-- Root extraction only ever throws TypeErrors. -/
theorem extractRoots_error_shape :
    ∀ ks (parsed : YVal) (document : Doc) (e : JSErr),
      extractRoots parsed document ks = .error e →
      ∃ k, e = .typeError k
  | [], _, _, _, h => absurd h (fun hh => Except.noConfusion hh)
  | k :: rest, parsed, document, e, h => by
      cases hget : jsGet parsed k with
      | error er =>
          replace h : (jsGet parsed k >>= fun v? =>
            extractRoots parsed document rest >>= fun tail =>
            match v? with
            | some v => Except.ok (mkOption document none k v :: tail)
            | none => Except.ok tail) = Except.error e := h
          rw [hget] at h
          replace h : Except.error er = Except.error e := h
          have her : er = e := by
            simpa using h
          subst her
          cases parsed with
          | prim p =>
              cases p with
              | null =>
                  refine ⟨k, ?_⟩
                  have : jsGet (.prim .null) k = .error (.typeError k) := rfl
                  rw [this] at hget
                  simpa using hget.symm
              | str s => exact absurd hget (fun hh => Except.noConfusion hh)
              | num n => exact absurd hget (fun hh => Except.noConfusion hh)
              | bool b => exact absurd hget (fun hh => Except.noConfusion hh)
          | arr xs => exact absurd hget (fun hh => Except.noConfusion hh)
          | obj l => exact absurd hget (fun hh => Except.noConfusion hh)
      | ok v? =>
          replace h : (jsGet parsed k >>= fun v? =>
            extractRoots parsed document rest >>= fun tail =>
            match v? with
            | some v => Except.ok (mkOption document none k v :: tail)
            | none => Except.ok tail) = Except.error e := h
          rw [hget, exceptBindOk] at h
          cases hrest : extractRoots parsed document rest with
          | error er =>
              rw [hrest] at h
              replace h : Except.error er = Except.error e := h
              have her : er = e := by simpa using h
              cases her
              exact extractRoots_error_shape rest parsed document _ hrest
          | ok tail =>
              rw [hrest, exceptBindOk] at h
              cases v? with
              | some v => exact absurd h (fun hh => Except.noConfusion hh)
              | none => exact absurd h (fun hh => Except.noConfusion hh)

/-- C6 (code behaviour): parseYamlTemplate never raises a SyntaxError,
for any input text and any library parse result; in particular not for
the malformed input of the claim.  The parse proceeds on whatever tree
the library recovered, because the library collects syntax errors in
the document rather than throwing. -/
theorem c6_parse_never_syntax_error (parseFn : String → YDocument)
    (s : String) (msg : String) :
    parseYamlTemplateS parseFn s ≠ .error (.syntaxError msg) := by
  intro h
  rw [parseYamlTemplateS] at h
  set document := (parseFn s).contents with hdef
  cases hres : extractRoots (decodeDoc document) document rootKeys with
  | error e =>
      replace h : (extractRoots (decodeDoc document) document rootKeys >>=
        fun r => Except.ok (ParsedTemplate.mk r
          (extractGames (decodeDoc document) document)
          (decodeDoc document) document)) =
          Except.error (.syntaxError msg) := h
      rw [hres] at h
      replace h : Except.error e =
        (Except.error (.syntaxError msg) : Except JSErr ParsedTemplate) := h
      have he : e = .syntaxError msg := by simpa using h
      obtain ⟨k, hk⟩ := extractRoots_error_shape rootKeys
        (decodeDoc document) document e hres
      rw [hk] at he
      exact JSErr.noConfusion he
  | ok ro =>
      replace h : (extractRoots (decodeDoc document) document rootKeys >>=
        fun r => Except.ok (ParsedTemplate.mk r
          (extractGames (decodeDoc document) document)
          (decodeDoc document) document)) =
          Except.error (.syntaxError msg) := h
      rw [hres, exceptBindOk] at h
      exact Except.noConfusion h

/-- C10: for every document whose decode is null (the empty document,
a comment-only document, or an explicit null), parseYamlTemplate
throws a TypeError from indexing the first recognized root key into
the null decode; it neither raises a SyntaxError nor returns a
template. -/
theorem c10_null_decode_type_error (document : Doc)
    (h : decodeDoc document = .prim .null) :
    parseYamlTemplate document = .error (.typeError "description") := by
  cases document with
  | none => rfl
  | some n =>
      cases n with
      | scalar p m =>
          have hp : p = .null := by
            have : YVal.prim p = YVal.prim .null := h
            simpa using this
          subst hp
          rfl
      | seq xs m => exact absurd h (fun hh => YVal.noConfusion hh)
      | map items m => exact absurd h (fun hh => YVal.noConfusion hh)

/-- Witness for C10: the empty document decodes to null, and parsing
it throws the TypeError. -/
theorem c10_null_decode_type_error_witness :
    decodeDoc none = .prim .null ∧
      parseYamlTemplate none = .error (.typeError "description") :=
  ⟨rfl, c10_null_decode_type_error none rfl⟩

/-- C7: during surgical merge, root options never insert a new
top-level pair (the key-node list is unchanged by the whole root
update), and every root option whose key is not found among the
top-level pairs is silently dropped: when no pair matches any given
option, the tree is returned unchanged, and no error is possible since
the update is a total function. -/
theorem c7_unmatched_root_options_dropped (items : List MPair)
    (ro : List ParsedOption) :
    ((ro.foldl updateRootOption items).map (fun p => p.1) =
        items.map (fun p => p.1)) ∧
      ((∀ o ∈ ro, items.all (fun p => !(keyMatches p.1.1 o.key)) = true) →
        ro.foldl updateRootOption items = items) := by
  constructor
  · induction ro generalizing items with
    | nil => rfl
    | cons o rest ih =>
        simp only [List.foldl_cons]
        rw [ih (updateRootOption items o)]
        exact replaceFirst_keys items o.key (createNode o.value)
  · induction ro with
    | nil => intro _; rfl
    | cons o rest ih =>
        intro h
        simp only [List.foldl_cons]
        have h0 := h o (by simp)
        rw [List.all_eq_true] at h0
        have hid : updateRootOption items o = items := by
          apply replaceFirst_no_match
          intro p hp
          have := h0 p hp
          simpa using this
        rw [hid]
        exact ih (fun o2 ho2 => h o2 (by simp [ho2]))

/-- A one-pair top-level mapping for the C7 witness. -/
def c7Items : List MPair := [((.str "name", {}), .scalar (.str "P") {})]

/-- A root option whose key matches no top-level pair. -/
def c7Opt : ParsedOption :=
  { key := "requires", value := .prim (.str "x"), type := .string,
    originalValue := .prim (.str "x"), comment := none,
    isFlowStyle := false }

/-- Witness for C7: updating with the unmatched option leaves the
concrete tree unchanged and inserts nothing. -/
theorem c7_unmatched_root_options_dropped_witness :
    (([c7Opt].foldl updateRootOption c7Items).map (fun p => p.1) =
        c7Items.map (fun p => p.1)) ∧
      [c7Opt].foldl updateRootOption c7Items = c7Items :=
  ⟨(c7_unmatched_root_options_dropped c7Items [c7Opt]).1,
    (c7_unmatched_root_options_dropped c7Items [c7Opt]).2 (by decide)⟩

/-- A metadata record carrying no comment. -/
def metaCommentFree (m : Meta) : Bool :=
  m.commentBefore.isNone && m.comment.isNone

mutual

/-- No node of the tree carries a comment. -/
def commentFree : Node → Bool
  | .scalar _ m => metaCommentFree m
  | .seq xs m => metaCommentFree m && commentFreeList xs
  | .map items m => metaCommentFree m && commentFreePairs items

/-- No element node carries a comment. -/
def commentFreeList : List Node → Bool
  | [] => true
  | x :: xs => commentFree x && commentFreeList xs

/-- No key node or value node of the pairs carries a comment. -/
def commentFreePairs : List MPair → Bool
  | [] => true
  | p :: rest => metaCommentFree p.1.2 && commentFree p.2 &&
      commentFreePairs rest

end

mutual

/-- Freshly built nodes carry no comments anywhere. -/
theorem createNode_commentFree : ∀ v, commentFree (createNode v) = true
  | .prim _ => rfl
  | .arr xs => by
      simp only [createNode, commentFree, createNodeList_commentFree xs]
      rfl
  | .obj l => by
      simp only [createNode, commentFree, createNodePairs_commentFree l]
      rfl

/-- Freshly built element nodes carry no comments. -/
theorem createNodeList_commentFree :
    ∀ xs, commentFreeList (createNodeList xs) = true
  | [] => rfl
  | v :: vs => by
      simp only [createNodeList, commentFreeList,
        createNode_commentFree v, createNodeList_commentFree vs]
      rfl

/-- Freshly built pairs carry no comments. -/
theorem createNodePairs_commentFree :
    ∀ l, commentFreePairs (createNodePairs l) = true
  | [] => rfl
  | e :: rest => by
      simp only [createNodePairs, commentFreePairs,
        createNode_commentFree e.2, createNodePairs_commentFree rest]
      rfl

end

/-- replaceFirst at the first matching position replaces exactly that
pair value. -/
theorem replaceFirst_split (pre : List MPair) (p : MPair)
    (post : List MPair) (k : String) (v : Node)
    (hpre : ∀ q ∈ pre, keyMatches q.1.1 k = false)
    (hp : keyMatches p.1.1 k = true) :
    replaceFirst (pre ++ p :: post) k v = pre ++ (p.1, v) :: post := by
  induction pre with
  | nil => simp [replaceFirst, hp]
  | cons q rest ih =>
      have hq := hpre q (by simp)
      simp only [List.cons_append, replaceFirst, hq, Bool.false_eq_true,
        if_false, List.append_eq]
      rw [ih (fun r hr => hpre r (by simp [hr]))]

/-- C9 (implicit): a root option whose key is found has its whole value
subtree replaced by a freshly built node, even when both the old node
and the new value are mappings, and that fresh subtree carries no
comments anywhere: root options never receive the member-by-member
reconciliation, so comments inside a root-level mapping value do not
survive the update. -/
theorem c9_root_wholesale_replacement (o : ParsedOption)
    (pre : List MPair) (p : MPair) (post : List MPair)
    (hpre : ∀ q ∈ pre, keyMatches q.1.1 o.key = false)
    (hp : keyMatches p.1.1 o.key = true) :
    updateRootOption (pre ++ p :: post) o =
        pre ++ (p.1, createNode o.value) :: post ∧
      commentFree (createNode o.value) = true :=
  ⟨replaceFirst_split pre p post o.key (createNode o.value) hpre hp,
    createNode_commentFree o.value⟩

/-- A root pair whose mapping value carries a comment on a member. -/
def c9Pair : MPair :=
  ((.str "game", {}), .map
    [((.str "A Link to the Past", {commentBefore := some " weight"}),
        .scalar (.num 1) {})] {})

/-- A root option editing that mapping value to another mapping. -/
def c9Opt : ParsedOption :=
  { key := "game",
    value := .obj [("A Link to the Past", .prim (.num 1)),
                   ("Timespinner", .prim (.num 2))],
    type := .weighted,
    originalValue := .obj [("A Link to the Past", .prim (.num 1))],
    comment := none, isFlowStyle := false }

/-- Witness for C9: on the concrete tree, both the old node and the new
value are mappings, yet the update replaces the value wholesale with a
comment-free fresh subtree. -/
theorem c9_root_wholesale_replacement_witness :
    updateRootOption [c9Pair] c9Opt =
        [(c9Pair.1, createNode c9Opt.value)] ∧
      commentFree (createNode c9Opt.value) = true :=
  ⟨(c9_root_wholesale_replacement c9Opt [] c9Pair []
      (by intro q hq; cases hq) rfl).1,
    (c9_root_wholesale_replacement c9Opt [] c9Pair []
      (by intro q hq; cases hq) rfl).2⟩

/-- A successful parse records the decode as raw and the game sections
as extracted. -/
theorem parse_fields_eq (document : Doc) (pt : ParsedTemplate)
    (h : parseYamlTemplate document = .ok pt) :
    pt.raw = decodeDoc document ∧
      pt.gameOptions = extractGames (decodeDoc document) document := by
  cases hres : extractRoots (decodeDoc document) document rootKeys with
  | error e =>
      replace h : (extractRoots (decodeDoc document) document rootKeys >>=
        fun r => Except.ok (ParsedTemplate.mk r
          (extractGames (decodeDoc document) document)
          (decodeDoc document) document)) = Except.ok pt := h
      rw [hres] at h
      exact absurd h (fun hh => Except.noConfusion hh)
  | ok ro =>
      replace h : (extractRoots (decodeDoc document) document rootKeys >>=
        fun r => Except.ok (ParsedTemplate.mk r
          (extractGames (decodeDoc document) document)
          (decodeDoc document) document)) = Except.ok pt := h
      rw [hres, exceptBindOk, Except.ok.injEq] at h
      rw [← h]
      exact ⟨rfl, rfl⟩

/-- C8 (amended): during extraction, a top-level key outside the
recognized root-key set is silently skipped exactly when its decoded
value is a scalar or null; a mapping value and also a sequence value
(JavaScript typeof object) each produce one section with one option
per enumerated member.  The game sections are exactly the enumerated
non-root entries of the decode whose value has typeof object. -/
theorem c8_sections_amended (document : Doc) (pt : ParsedTemplate)
    (h : parseYamlTemplate document = .ok pt) :
    pt.gameOptions = ((enumEntries pt.raw).filter
      (fun e => !(rootKeys.contains e.1) && typeofObjectNotNull e.2)).map
      (fun e => (e.1, (enumEntries e.2).map
        (fun s => mkOption document (some e.1) s.1 s.2))) := by
  obtain ⟨hraw, hgo⟩ := parse_fields_eq document pt h
  rw [hgo, hraw, extractGames_eq]

/-- A document with one unrecognized top-level key holding a sequence. -/
def c8Doc : Doc :=
  some (.map [((.str "Stuff", {}),
    .seq [.scalar (.num 10) {}, .scalar (.num 20) {}] {})] {})

/-- The parse result of that document. -/
def c8Pt : ParsedTemplate :=
  match parseYamlTemplate c8Doc with
  | .ok pt => pt
  | .error _ => ⟨[], [], .prim .null, none⟩

/-- Counterexample to C8 as stated: the unrecognized top-level key
Stuff holds a sequence, not a mapping, yet it is not skipped: it
produces a section with one option per element, keyed by the index
strings.  The claim predicts no section and no option. -/
theorem c8_sections_counterexample :
    parseYamlTemplate c8Doc = .ok c8Pt ∧
      c8Pt.gameOptions.map
        (fun e => (e.1, e.2.map (fun o => o.key))) =
        [("Stuff", ["0", "1"])] :=
  ⟨rfl, rfl⟩

/-- Witness for C8: the amended characterization applied to the
concrete sequence-valued document. -/
theorem c8_sections_amended_witness :
    c8Pt.gameOptions = ((enumEntries c8Pt.raw).filter
      (fun e => !(rootKeys.contains e.1) && typeofObjectNotNull e.2)).map
      (fun e => (e.1, (enumEntries e.2).map
        (fun s => mkOption c8Doc (some e.1) s.1 s.2))) :=
  c8_sections_amended c8Doc c8Pt rfl

/-- The in-place member update induced by a new object: every pair
whose stringified key occurs in the new object keeps its key node and
receives a freshly built value; every other pair is untouched. -/
def updOld (new : List (String × YVal)) (old : List MPair) :
    List MPair :=
  old.map (fun p => match new.lookup (stringifyKey p.1.1) with
    | some cv => (p.1, createNode cv)
    | none => p)

/-- The empty update changes nothing. -/
theorem updOld_nil (old : List MPair) : updOld [] old = old := by
  rw [updOld]
  rw [show (fun (p : MPair) =>
    match List.lookup (stringifyKey p.1.1) ([] : List (String × YVal)) with
    | some cv => (p.1, createNode cv)
    | none => p) = fun p => p from rfl]
  exact List.map_id old

/-- Updates under a key held by no pair can be dropped. -/
theorem updOld_cons_no_key (c : String) (cv : YVal)
    (new2 : List (String × YVal)) (old : List MPair)
    (h : ∀ p ∈ old, ¬stringifyKey p.1.1 = c) :
    updOld ((c, cv) :: new2) old = updOld new2 old := by
  rw [updOld, updOld]
  apply List.map_congr_left
  intro p hp
  have hbeq : (stringifyKey p.1.1 == c) = false :=
    beq_eq_false_iff_ne.mpr (h p hp)
  rw [List.lookup_cons, hbeq]

/-- Replacing the matching pair first and then updating with the rest
is the same as updating with the whole new object, when the replaced
key occurs nowhere in the rest. -/
theorem updOld_replaceFirst (old : List MPair) (c : String) (cv : YVal)
    (new2 : List (String × YVal))
    (hga : old.all (fun p => goodKey p.1.1) = true)
    (hnd : (old.map (fun p => stringifyKey p.1.1)).Nodup)
    (hcnotin : ∀ e ∈ new2, ¬(e.1 : String) = c) :
    updOld new2 (replaceFirst old c (createNode cv)) =
      updOld ((c, cv) :: new2) old := by
  induction old with
  | nil => rfl
  | cons p rest ih =>
      rw [List.all_cons, Bool.and_eq_true] at hga
      simp only [List.map_cons, List.nodup_cons] at hnd
      have hm := keyMatches_goodKey p.1.1 c hga.1
      by_cases h : stringifyKey p.1.1 = c
      · have hmatch : keyMatches p.1.1 c = true := by
          rw [hm]; simpa using h
        rw [replaceFirst, hmatch]
        simp only [if_true, reduceIte]
        rw [updOld, List.map_cons]
        rw [updOld, List.map_cons]
        have hlk2 : new2.lookup (stringifyKey p.1.1) = none := by
          rw [List.lookup_eq_none_iff]
          intro e he
          rw [bne_iff_ne]
          intro he1
          exact hcnotin e he (by rw [← he1, h])
        have hlk1 : (((c, cv) :: new2).lookup
            (stringifyKey p.1.1)) = some cv := by
          rw [List.lookup_cons, show (stringifyKey p.1.1 == c) = true by
            simpa using h]
        have hrest : updOld new2 rest = updOld ((c, cv) :: new2) rest := by
          rw [updOld_cons_no_key c cv new2 rest]
          intro q hq hqc
          exact hnd.1 (by
            rw [h, ← hqc]
            exact List.mem_map_of_mem _ hq)
        have htails : List.map (fun q =>
            match new2.lookup (stringifyKey q.1.1) with
            | some w => (q.1, createNode w)
            | none => q) rest = List.map (fun q =>
            match (((c, cv) :: new2).lookup (stringifyKey q.1.1)) with
            | some w => (q.1, createNode w)
            | none => q) rest := by
          have := hrest
          rw [updOld, updOld] at this
          exact this
        rw [show ((stringifyKey ((p.1, createNode cv) : MPair).1.1)) =
          stringifyKey p.1.1 from rfl]
        rw [hlk2, hlk1, htails]
      · have hmatch : keyMatches p.1.1 c = false := by
          rw [hm]; simpa using h
        rw [replaceFirst, hmatch]
        simp only [Bool.false_eq_true, if_false]
        rw [updOld, List.map_cons, updOld, List.map_cons]
        have hlkeq : new2.lookup (stringifyKey p.1.1) =
            ((c, cv) :: new2).lookup (stringifyKey p.1.1) := by
          rw [List.lookup_cons, show (stringifyKey p.1.1 == c) = false from
            beq_eq_false_iff_ne.mpr h]
        rw [← hlkeq]
        have htails := ih hga.2 hnd.2
        rw [updOld, updOld] at htails
        rw [htails]

/-- Under good keys, the merge member search succeeds exactly when some
stringified key equals the searched key. -/
theorem any_keyMatches_iff (old : List MPair) (c : String)
    (hga : old.all (fun p => goodKey p.1.1) = true) :
    old.any (fun p => keyMatches p.1.1 c) = true ↔
      ∃ p ∈ old, stringifyKey p.1.1 = c := by
  rw [List.all_eq_true] at hga
  rw [List.any_eq_true]
  constructor
  · rintro ⟨p, hp, hk⟩
    refine ⟨p, hp, ?_⟩
    rw [keyMatches_goodKey p.1.1 c (hga p hp)] at hk
    simpa using hk
  · rintro ⟨p, hp, hk⟩
    refine ⟨p, hp, ?_⟩
    rw [keyMatches_goodKey p.1.1 c (hga p hp)]
    simpa using hk

/-- The add duplicate check fails when no stringified key equals the
added key. -/
theorem addFindsDuplicate_false (old : List MPair) (c : String)
    (h : ∀ p ∈ old, ¬stringifyKey p.1.1 = c) :
    addFindsDuplicate old c = false := by
  rw [addFindsDuplicate, List.any_eq_false]
  intro p hp
  cases hk : p.1.1 with
  | str s =>
      have := h p hp
      rw [hk] at this
      simpa [stringifyKey] using this
  | num n => simp
  | bool b => simp
  | null => simp

/-- any over a mapped list is any of the composition. -/
theorem any_map_general {α β : Type} (l : List α) (f : α → β)
    (p : β → Bool) : (l.map f).any p = l.any (fun x => p (f x)) := by
  induction l with
  | nil => rfl
  | cons x rest ih => simp [ih]

/-- Lists with the same stringified keys agree on key searches. -/
theorem any_stringify_congr (a b : List MPair) (s : String)
    (h : a.map (fun p => stringifyKey p.1.1) =
      b.map (fun p => stringifyKey p.1.1)) :
    (a.any fun p => stringifyKey p.1.1 == s) =
      (b.any fun p => stringifyKey p.1.1 == s) := by
  have h1 := any_map_general a (fun p => stringifyKey p.1.1)
    (fun t => t == s)
  have h2 := any_map_general b (fun p => stringifyKey p.1.1)
    (fun t => t == s)
  rw [← h1, ← h2, h]

/-- Characterization of the member loop under good keys: every new
entry whose key matches an existing pair replaces only that pair value
in place; every other new entry is appended as a bare pair; nothing
throws. -/
theorem reconcileEntries_char (new : List (String × YVal))
    (old : List MPair)
    (hga : old.all (fun p => goodKey p.1.1) = true)
    (hnd : (old.map (fun p => stringifyKey p.1.1)).Nodup)
    (hnnd : (new.map (fun e => e.1)).Nodup) :
    reconcileEntries old new = .ok (updOld new old ++
      (new.filter (fun e =>
        !(old.any (fun p => stringifyKey p.1.1 == e.1)))).map
        (fun e => ((Prim.str e.1, ({} : Meta)), createNode e.2))) := by
  induction new generalizing old with
  | nil =>
      rw [reconcileEntries, updOld_nil]
      simp
  | cons e rest ih =>
      obtain ⟨c, cv⟩ := e
      simp only [List.map_cons, List.nodup_cons] at hnnd
      cases hfound : old.any (fun p => keyMatches p.1.1 c)
      · have hnok : ∀ p ∈ old, ¬stringifyKey p.1.1 = c := by
          intro p hp hpc
          have : old.any (fun p => keyMatches p.1.1 c) = true :=
            (any_keyMatches_iff old c hga).mpr ⟨p, hp, hpc⟩
          rw [hfound] at this
          exact Bool.noConfusion this
        have hdup : addFindsDuplicate old c = false :=
          addFindsDuplicate_false old c hnok
        rw [reconcileEntries, hfound]
        simp only [Bool.false_eq_true, if_false, hdup]
        have hga1 : (old ++ [((Prim.str c, ({} : Meta)),
            createNode cv)]).all (fun p => goodKey p.1.1) = true := by
          rw [List.all_append, Bool.and_eq_true]
          refine ⟨hga, ?_⟩
          simp only [List.all_cons, List.all_nil, Bool.and_true]
          rfl
        have hnd1 : ((old ++ [((Prim.str c, ({} : Meta)),
            createNode cv)]).map
            (fun p => stringifyKey p.1.1)).Nodup := by
          rw [List.map_append, List.nodup_append]
          refine ⟨hnd, by simp, ?_⟩
          intro a ha hb
          simp only [List.map_cons, List.map_nil, List.mem_singleton,
            stringifyKey] at hb
          subst hb
          rcases List.mem_map.mp ha with ⟨q, hq, hq1⟩
          exact hnok q hq hq1
        have hihr := ih (old ++ [((Prim.str c, ({} : Meta)),
          createNode cv)]) hga1 hnd1 hnnd.2
        rw [hihr]
        have hupd : updOld rest (old ++ [((Prim.str c, ({} : Meta)),
            createNode cv)]) =
            updOld ((c, cv) :: rest) old ++
              [((Prim.str c, ({} : Meta)), createNode cv)] := by
          rw [updOld, List.map_append]
          rw [show updOld ((c, cv) :: rest) old = updOld rest old from
            updOld_cons_no_key c cv rest old hnok]
          rw [show List.map (fun (p : MPair) =>
            match rest.lookup (stringifyKey p.1.1) with
            | some w => (p.1, createNode w)
            | none => p) [((Prim.str c, ({} : Meta)), createNode cv)] =
            [((Prim.str c, ({} : Meta)), createNode cv)] from by
              simp only [List.map_cons, List.map_nil]
              rw [show stringifyKey ((((Prim.str c), ({} : Meta)),
                createNode cv) : MPair).1.1 = c from rfl]
              rw [List.lookup_eq_none_iff.mpr (by
                intro f hf
                rw [bne_iff_ne]
                intro hfc
                exact hnnd.1 (by rw [hfc]
                                 exact List.mem_map_of_mem _ hf))]]
          rfl
        have hfil : rest.filter (fun f =>
            !((old ++ [((Prim.str c, ({} : Meta)), createNode cv)]).any
              (fun p => stringifyKey p.1.1 == f.1))) =
            rest.filter (fun f =>
              !(old.any (fun p => stringifyKey p.1.1 == f.1))) := by
          apply List.filter_congr
          intro f hf
          rw [List.any_append]
          have hone : ([((Prim.str c, ({} : Meta)),
              createNode cv)] : List MPair).any
              (fun p => stringifyKey p.1.1 == f.1) = false := by
            simp only [List.any_cons, List.any_nil, Bool.or_false]
            rw [show stringifyKey ((((Prim.str c), ({} : Meta)),
              createNode cv) : MPair).1.1 = c from rfl]
            rw [beq_eq_false_iff_ne]
            intro hcf
            exact hnnd.1 (by rw [hcf]
                             exact List.mem_map_of_mem _ hf)
          rw [hone, Bool.or_false]
        have hheadfil : ((c, cv) :: rest).filter (fun f =>
            !(old.any (fun p => stringifyKey p.1.1 == f.1))) =
            (c, cv) :: rest.filter (fun f =>
              !(old.any (fun p => stringifyKey p.1.1 == f.1))) := by
          rw [List.filter_cons]
          have hzero : old.any
              (fun p => stringifyKey p.1.1 == (c, cv).1) = false := by
            rw [List.any_eq_false]
            intro p hp hbeq
            exact hnok p hp (by simpa using hbeq)
          rw [hzero]
          rfl
        rw [hupd, hfil, hheadfil]
        simp
      · rw [reconcileEntries, hfound]
        simp only [if_true, reduceIte]
        have hex : ∃ p ∈ old, stringifyKey p.1.1 = c :=
          (any_keyMatches_iff old c hga).mp hfound
        have hga1 := all_goodKey_replaceFirst old c (createNode cv) hga
        have hnd1 : ((replaceFirst old c (createNode cv)).map
            (fun p => stringifyKey p.1.1)).Nodup := by
          apply nodup_of_keys_eq old _ (replaceFirst_keys old c _) hnd
        have hihr := ih (replaceFirst old c (createNode cv)) hga1 hnd1
          hnnd.2
        rw [hihr]
        have hupd : updOld rest (replaceFirst old c (createNode cv)) =
            updOld ((c, cv) :: rest) old :=
          updOld_replaceFirst old c cv rest hga hnd
            (by intro f hf hfc
                exact hnnd.1 (by rw [← hfc]
                                 exact List.mem_map_of_mem _ hf))
        have hmapeq : (replaceFirst old c (createNode cv)).map
            (fun p => stringifyKey p.1.1) =
            old.map (fun p => stringifyKey p.1.1) :=
          nodup_of_keys_eq old (replaceFirst old c (createNode cv))
            (replaceFirst_keys old c _) |> fun _ => by
          have hb : (replaceFirst old c (createNode cv)).map
              (fun p => stringifyKey p.1.1) =
              ((replaceFirst old c (createNode cv)).map
                (fun p => p.1)).map (fun q => stringifyKey q.1) := by
            simp [List.map_map, Function.comp]
          have ho : old.map (fun p => stringifyKey p.1.1) =
              (old.map (fun p => p.1)).map
                (fun q => stringifyKey q.1) := by
            simp [List.map_map, Function.comp]
          rw [hb, replaceFirst_keys, ← ho]
        have hfil : rest.filter (fun f =>
            !((replaceFirst old c (createNode cv)).any
              (fun p => stringifyKey p.1.1 == f.1))) =
            rest.filter (fun f =>
              !(old.any (fun p => stringifyKey p.1.1 == f.1))) := by
          apply List.filter_congr
          intro f hf
          rw [any_stringify_congr (replaceFirst old c (createNode cv))
            old f.1 hmapeq]
        have hheadfil : ((c, cv) :: rest).filter (fun f =>
            !(old.any (fun p => stringifyKey p.1.1 == f.1))) =
            rest.filter (fun f =>
              !(old.any (fun p => stringifyKey p.1.1 == f.1))) := by
          rw [List.filter_cons]
          rcases hex with ⟨p0, hp0, hp0c⟩
          have hone : old.any
              (fun p => stringifyKey p.1.1 == (c, cv).1) = true := by
            rw [List.any_eq_true]
            exact ⟨p0, hp0, by simpa using hp0c⟩
          rw [hone]
          rfl
        rw [hupd, hfil, hheadfil]

/-- The removal filter commutes with the in-place update, because the
update keeps every key node. -/
theorem filterNewKeys_updOld (new : List (String × YVal))
    (old : List MPair) (ks : List String) :
    filterNewKeys (updOld new old) ks =
      updOld new (old.filter (fun p =>
        match keyValueStr p.1.1 with
        | some s => ks.contains s
        | none => false)) := by
  induction old with
  | nil => rfl
  | cons p rest ih =>
      have hcons : updOld new (p :: rest) =
          (match new.lookup (stringifyKey p.1.1) with
            | some cv => (p.1, createNode cv)
            | none => p) :: updOld new rest := rfl
      rw [hcons]
      set u : MPair := (match new.lookup (stringifyKey p.1.1) with
        | some cv => (p.1, createNode cv)
        | none => p) with hu
      have hu1 : u.1 = p.1 := by
        rw [hu]
        cases new.lookup (stringifyKey p.1.1) <;> rfl
      rw [filterNewKeys, List.filter_cons]
      simp only [hu1]
      rw [List.filter_cons]
      cases hk : (match keyValueStr p.1.1 with
        | some s => ks.contains s
        | none => false)
      · simp only [hk, Bool.false_eq_true, if_false]
        rw [filterNewKeys] at ih
        exact ih
      · simp only [hk, if_true, reduceIte]
        rw [filterNewKeys] at ih
        have hstep : updOld new (p :: rest.filter (fun q =>
            match keyValueStr q.1.1 with
            | some s => ks.contains s
            | none => false)) = u :: updOld new (rest.filter (fun q =>
            match keyValueStr q.1.1 with
            | some s => ks.contains s
            | none => false)) := rfl
        rw [hstep, ih]

/-- C4 (amended): weighted-mapping reconciliation, for mappings whose
existing member keys are scalar strings with no two stringified keys
equal, against a new value with pairwise distinct member keys.  Every
key of the new value that exists in the old mapping keeps its key node
with its metadata (so its comment survives) and has only its member
value replaced by a fresh node; every new key absent from the old
mapping is appended as a bare, uncommented member; every old member
whose key is absent from the new value is removed; and the merge never
throws on such input. -/
theorem c4_weighted_reconcile_amended (old : List MPair)
    (new : List (String × YVal))
    (hold : pairsGood old = true)
    (hnnd : (new.map (fun e => e.1)).Nodup) :
    mapReconcile old new = .ok (
      updOld new (old.filter (fun p =>
        (new.map (fun e => e.1)).contains (stringifyKey p.1.1))) ++
      (new.filter (fun e =>
        !(old.any (fun p => stringifyKey p.1.1 == e.1)))).map
        (fun e => ((Prim.str e.1, ({} : Meta)), createNode e.2))) := by
  rcases (pairsGood_iff old).mp hold with ⟨hga, hnd⟩
  have hchar := reconcileEntries_char new old hga hnd hnnd
  show (reconcileEntries old new >>= fun updated =>
    Except.ok (filterNewKeys updated (new.map (fun e => e.1)))) = _
  rw [hchar, exceptBindOk, Except.ok.injEq]
  rw [show filterNewKeys (updOld new old ++
      (new.filter (fun e =>
        !(old.any (fun p => stringifyKey p.1.1 == e.1)))).map
        (fun e => ((Prim.str e.1, ({} : Meta)), createNode e.2)))
      (new.map (fun e => e.1)) =
    filterNewKeys (updOld new old) (new.map (fun e => e.1)) ++
    filterNewKeys ((new.filter (fun e =>
        !(old.any (fun p => stringifyKey p.1.1 == e.1)))).map
        (fun e => ((Prim.str e.1, ({} : Meta)), createNode e.2)))
      (new.map (fun e => e.1)) from by
    rw [filterNewKeys, filterNewKeys, filterNewKeys, List.filter_append]]
  rw [filterNewKeys_updOld]
  rw [filterNewKeys_all_kept]
  · rw [List.all_eq_true] at hga
    rw [show old.filter (fun p =>
        match keyValueStr p.1.1 with
        | some s => (new.map (fun e => e.1)).contains s
        | none => false) =
      old.filter (fun p =>
        (new.map (fun e => e.1)).contains (stringifyKey p.1.1)) from by
      apply List.filter_congr
      intro p hp
      have hg := hga p hp
      cases hk : p.1.1 with
      | str t => simp only [hk, keyValueStr, stringifyKey]
      | num n => rw [hk] at hg; simp [goodKey] at hg
      | bool b => rw [hk] at hg; simp [goodKey] at hg
      | null => rw [hk] at hg; simp [goodKey] at hg]
  · rw [List.all_eq_true]
    intro q hq
    rcases List.mem_map.mp hq with ⟨f, hf, hfq⟩
    rw [← hfq]
    rfl
  · intro q hq
    rcases List.mem_map.mp hq with ⟨f, hf, hfq⟩
    rw [← hfq]
    rw [show stringifyKey (((Prim.str f.1, ({} : Meta)),
      createNode f.2) : MPair).1.1 = f.1 from rfl]
    exact List.mem_map_of_mem _ (List.mem_of_mem_filter hf)

/-- An old weighted mapping holding one member under the numeric key 5,
with a comment on that member key. -/
def c4NumKeyOld : List MPair :=
  [((.num 5, {commentBefore := some " important"}), .scalar (.num 10) {})]

/-- Counterexample to C4 as stated: the old mapping decodes to the
single property 5 mapped to 10, so the new value's key 5 exists in the
old mapping and the claim requires only its member value to be replaced,
preserving the member's comment.  Instead the merge lookup reads the
raw key, the truthy number 5, which never strict-equals the string
key, so the member is re-added as a fresh bare string-keyed pair and
the original numeric-keyed pair is removed by the filter: the comment
is lost and the key node replaced. -/
theorem c4_weighted_reconcile_counterexample :
    decode (.map c4NumKeyOld {}) = .obj [("5", .prim (.num 10))] ∧
      mapReconcile c4NumKeyOld [("5", .prim (.num 7))] =
        .ok [((.str "5", {}), .scalar (.num 7) {})] ∧
      ((Prim.str "5", ({} : Meta)) ≠
        (Prim.num 5, ({commentBefore := some " important"} : Meta))) :=
  ⟨rfl, rfl, by decide⟩

/-- The old mapping of the specification example, with a comment kept
on the first member. -/
def c4ExampleOld : List MPair :=
  [((.str "a", {commentBefore := some " keep"}), .scalar (.num 10) {}),
   ((.str "b", {}), .scalar (.num 5) {})]

/-- The new value of the specification example. -/
def c4ExampleNew : List (String × YVal) :=
  [("a", .prim (.num 10)), ("c", .prim (.num 7))]

/-- Witness for C4: on the specification example, editing a mapping of
a and b into one of a and c keeps the commented a pair with a fresh
value, appends a bare c pair, and drops b. -/
theorem c4_weighted_reconcile_amended_witness :
    pairsGood c4ExampleOld = true ∧
      mapReconcile c4ExampleOld c4ExampleNew =
        .ok [((.str "a", {commentBefore := some " keep"}),
                .scalar (.num 10) {}),
             ((.str "c", {}), .scalar (.num 7) {})] := by
  constructor
  · rfl
  · rw [c4_weighted_reconcile_amended c4ExampleOld c4ExampleNew rfl
      (by decide)]
    rfl
